import Mathlib

/-!
Verification of the ESPEI parameter-selection core (`paramselect.py`) against its
natural-language specification.

This file contains a shallow embedding of the functions of `paramselect.py`
(and the database-copy discipline of `espei/error_functions/context.py`)
together with theorems settling the claims C1–C10.

Modelling conventions:
* A sublattice occupant (an element of a Python sublattice configuration) is
  either a species name (a Python `str`) or a sequence of species names
  (a Python `list` or `tuple`).  The inductive type `Occ` records which of the
  three cases we are in; `Occ.seq true l` is a Python `list`, `Occ.seq false l`
  a Python `tuple`.
* Python's `sorted` is a stable merge sort; we use `List.mergeSort`, which is
  also stable, with a boolean `le` relation derived from a three-way comparator
  that mirrors Python's lexicographic comparison of tuples of strings.
* Python floats are modelled by `ℚ` (data) and `ℝ`/`EReal` (AIC scores, where
  `np.log 0 = -inf` is modelled by `⊥ : EReal`).
-/

/-- A sublattice occupant: a single species (a Python string) or a sequence of
species.  The boolean of `seq` is `true` for a Python `list` and `false` for a
Python `tuple`; the two are distinct Python values but sort identically. -/
inductive Occ where
  | atom : String → Occ
  | seq : Bool → List String → Occ
deriving DecidableEq, Repr

instance : Inhabited Occ := ⟨Occ.atom ""⟩

/-- `tuple(x) if isinstance(x, list) else x`: convert a Python list occupant to
a tuple occupant, leave everything else unchanged (`canonicalize`, lines 129-132
of `paramselect.py`, and `_list_to_tuple`). -/
def tuplify : Occ → Occ
  | .atom s => .atom s
  | .seq _ l => .seq false l

theorem tuplify_tuplify (o : Occ) : tuplify (tuplify o) = tuplify o := by
  cases o <;> rfl

/-! ### Three-way comparators mirroring Python's ordering

Python compares tuples lexicographically (a strict prefix is smaller) and
strings lexicographically by code point.  `canonical_sort_key` maps each
element `i` of its argument to `tuple(i)` when `i` is a list or tuple and to
`(i,)` otherwise, so all keys are lists of tuples of strings, compared
lexicographically at each level. -/

/-- Three-way comparison of naturals. -/
def cmpNat (a b : ℕ) : Ordering :=
  if a < b then .lt else if b < a then .gt else .eq

theorem cmpNat_eq_lt {a b : ℕ} : cmpNat a b = .lt ↔ a < b := by
  unfold cmpNat
  split
  · simp [*]
  · split <;> simp <;> omega

theorem cmpNat_eq_gt {a b : ℕ} : cmpNat a b = .gt ↔ b < a := by
  unfold cmpNat
  split
  · simp; omega
  · split <;> simp <;> omega

theorem cmpNat_eq_eq {a b : ℕ} : cmpNat a b = .eq ↔ a = b := by
  unfold cmpNat
  split
  · simp; omega
  · split <;> simp <;> omega

/-- Lexicographic lift of a three-way comparator to lists (Python tuple/list
comparison: a strict prefix compares less). -/
def cmpList (cmp : α → α → Ordering) : List α → List α → Ordering
  | [], [] => .eq
  | [], _ :: _ => .lt
  | _ :: _, [] => .gt
  | a :: as, b :: bs =>
    match cmp a b with
    | .lt => .lt
    | .eq => cmpList cmp as bs
    | .gt => .gt

/-- Python string comparison: lexicographic on code points. -/
def cmpChar (a b : Char) : Ordering := cmpNat a.toNat b.toNat

def cmpString (a b : String) : Ordering := cmpList cmpChar a.data b.data

/-- Comparator for `canonical_sort_key` values (lists of tuples of strings). -/
def cmpKey (a b : List (List String)) : Ordering := cmpList (cmpList cmpString) a b

/-- The laws a comparator needs: it decides equality, it is antisymmetric
(swapping the arguments swaps the ordering) and `.lt` is transitive. -/
def LawfulCmp (cmp : α → α → Ordering) : Prop :=
  (∀ a b, cmp a b = .eq ↔ a = b) ∧
  (∀ a b, (cmp a b).swap = cmp b a) ∧
  (∀ a b c, cmp a b = .lt → cmp b c = .lt → cmp a c = .lt)

theorem lawful_cmpNat : LawfulCmp cmpNat := by
  refine ⟨fun a b => cmpNat_eq_eq, ?_, ?_⟩
  · intro a b
    rcases Nat.lt_trichotomy a b with h | h | h
    · rw [cmpNat_eq_lt.mpr h, cmpNat_eq_gt.mpr h]
      rfl
    · rw [cmpNat_eq_eq.mpr h, cmpNat_eq_eq.mpr h.symm]
      rfl
    · rw [cmpNat_eq_gt.mpr h, cmpNat_eq_lt.mpr h]
      rfl
  · intro a b c hab hbc
    rw [cmpNat_eq_lt] at *
    omega

theorem lawful_cmpChar : LawfulCmp cmpChar := by
  obtain ⟨he, hs, ht⟩ := lawful_cmpNat
  refine ⟨?_, fun a b => hs _ _, fun a b c => ht _ _ _⟩
  intro a b
  rw [cmpChar, he]
  constructor
  · intro h
    apply Char.eq_of_val_eq
    exact UInt32.toNat.inj h
  · intro h
    rw [h]

theorem cmpList_eq_iff {cmp : α → α → Ordering} (he : ∀ a b, cmp a b = .eq ↔ a = b) :
    ∀ a b, cmpList cmp a b = .eq ↔ a = b := by
  intro a
  induction a with
  | nil => intro b; cases b <;> simp [cmpList]
  | cons x xs ih =>
    intro b
    cases b with
    | nil => simp [cmpList]
    | cons y ys =>
      simp only [cmpList]
      rcases ho : cmp x y with _ | _ | _
      · constructor
        · intro h; cases h
        · intro h
          injection h with h1 h2
          rw [(he x y).mpr h1] at ho
          cases ho
      · rw [ih ys]
        have hxy : x = y := (he x y).mp ho
        subst hxy
        simp
      · constructor
        · intro h; cases h
        · intro h
          injection h with h1 h2
          rw [(he x y).mpr h1] at ho
          cases ho

theorem cmpList_swap {cmp : α → α → Ordering} (hs : ∀ a b, (cmp a b).swap = cmp b a) :
    ∀ a b, (cmpList cmp a b).swap = cmpList cmp b a := by
  intro a
  induction a with
  | nil => intro b; cases b <;> rfl
  | cons x xs ih =>
    intro b
    cases b with
    | nil => rfl
    | cons y ys =>
      simp only [cmpList]
      rcases ho : cmp x y with _ | _ | _ <;>
        rw [show cmp y x = (cmp x y).swap from (hs x y).symm, ho]
      · rfl
      · exact ih ys
      · rfl

theorem cmpList_lt_trans {cmp : α → α → Ordering}
    (he : ∀ a b, cmp a b = .eq ↔ a = b)
    (ht : ∀ a b c, cmp a b = .lt → cmp b c = .lt → cmp a c = .lt) :
    ∀ a b c, cmpList cmp a b = .lt → cmpList cmp b c = .lt → cmpList cmp a c = .lt := by
  intro a
  induction a with
  | nil =>
    intro b c hab hbc
    cases b with
    | nil => exact hbc
    | cons y ys =>
      cases c with
      | nil => simp [cmpList] at hbc
      | cons z zs => simp [cmpList]
  | cons x xs ih =>
    intro b c hab hbc
    cases b with
    | nil => simp [cmpList] at hab
    | cons y ys =>
      cases c with
      | nil => simp [cmpList] at hbc
      | cons z zs =>
        simp only [cmpList] at *
        rcases ho : cmp x y with _ | _ | _ <;> rw [ho] at hab
        · rcases ho' : cmp y z with _ | _ | _ <;> rw [ho'] at hbc
          · rw [ht x y z ho ho']
          · rw [← (he y z).mp ho', ho]
          · cases hbc
        · have hxy : x = y := (he x y).mp ho
          subst hxy
          rcases ho' : cmp x z with _ | _ | _
          · rfl
          · rw [ho'] at hbc
            exact ih ys zs hab hbc
          · rw [ho'] at hbc
            simp at hbc
        · cases hab

theorem lawful_cmpList {cmp : α → α → Ordering} (h : LawfulCmp cmp) :
    LawfulCmp (cmpList cmp) :=
  ⟨cmpList_eq_iff h.1, cmpList_swap h.2.1, cmpList_lt_trans h.1 h.2.2⟩

theorem lawful_cmpString : LawfulCmp cmpString := by
  obtain ⟨he, hs, ht⟩ := lawful_cmpList lawful_cmpChar
  refine ⟨?_, fun a b => hs _ _, fun a b c => ht _ _ _⟩
  intro a b
  rw [cmpString, he]
  exact ⟨fun h => String.ext h, fun h => by rw [h]⟩

theorem lawful_cmpKey : LawfulCmp cmpKey :=
  lawful_cmpList (lawful_cmpList lawful_cmpString)

/-! Derived facts about the boolean `le` induced by a lawful comparator. -/

theorem LawfulCmp.le_total {cmp : α → α → Ordering} (h : LawfulCmp cmp) (a b : α) :
    cmp a b ≠ .gt ∨ cmp b a ≠ .gt := by
  rcases ho : cmp a b with _ | _ | _
  · left; simp
  · left; simp
  · right
    intro hc
    have hsw := h.2.1 a b
    rw [ho, hc] at hsw
    cases hsw

theorem LawfulCmp.le_trans {cmp : α → α → Ordering} (h : LawfulCmp cmp) {a b c : α}
    (hab : cmp a b ≠ .gt) (hbc : cmp b c ≠ .gt) : cmp a c ≠ .gt := by
  rcases ho : cmp a b with _ | _ | _
  · rcases ho' : cmp b c with _ | _ | _
    · rw [h.2.2 a b c ho ho']; simp
    · rw [← (h.1 b c).mp ho', ho]; simp
    · exact absurd ho' hbc
  · rw [(h.1 a b).mp ho]
    exact hbc
  · exact absurd ho hab

theorem LawfulCmp.eq_of_le_of_le {cmp : α → α → Ordering} (h : LawfulCmp cmp) {a b : α}
    (hab : cmp a b ≠ .gt) (hba : cmp b a ≠ .gt) : cmp a b = .eq := by
  rcases ho : cmp a b with _ | _ | _
  · have hsw := h.2.1 a b
    rw [ho] at hsw
    exact absurd hsw.symm hba
  · rfl
  · exact absurd ho hab

/-! ### `canonical_sort_key` (paramselect.py lines 95–103)

`canonical_sort_key x` is `[tuple(i) if isinstance(i, (tuple, list)) else (i,)
for i in x]`.  It is applied at two types in the source:

* in `canonicalize`, to an *occupant*: iterating over a Python string yields its
  characters (each a one-character string), iterating over a pair yields its
  species strings — this is `keyOf` below;
* in `_generate_symmetric_group` and `phase_fit`, to a whole *configuration*:
  iterating yields the occupants — this is `cfgKey` below.
-/

/-- `canonical_sort_key` of an occupant.  A string occupant is iterated
character by character (each wrapped in a 1-tuple); a sequence occupant yields
one 1-tuple per species string. -/
def keyOf : Occ → List (List String)
  | .atom s => s.data.map (fun ch => [String.mk [ch]])
  | .seq _ l => l.map (fun sp => [sp])

/-- `canonical_sort_key` of a configuration: scalar occupants are wrapped in a
1-tuple, sequence occupants are taken as tuples. -/
def cfgKey (c : List Occ) : List (List String) :=
  c.map (fun o => match o with | .atom s => [s] | .seq _ l => l)

theorem keyOf_tuplify (o : Occ) : keyOf (tuplify o) = keyOf o := by
  cases o <;> rfl

/-- The boolean `le` relation Python's `sorted` realises on occupants. -/
def occLe (a b : Occ) : Bool := decide (cmpKey (keyOf a) (keyOf b) ≠ .gt)

/-- The boolean `le` relation Python's `sorted` realises on configurations. -/
def cfgLe (a b : List Occ) : Bool := decide (cmpKey (cfgKey a) (cfgKey b) ≠ .gt)

theorem occLe_iff {a b : Occ} : occLe a b = true ↔ cmpKey (keyOf a) (keyOf b) ≠ .gt := by
  simp [occLe]

theorem occLe_total (a b : Occ) : (occLe a b || occLe b a) = true := by
  rcases lawful_cmpKey.le_total (keyOf a) (keyOf b) with h | h <;>
    simp [occLe_iff, h]

theorem occLe_trans (a b c : Occ) (hab : occLe a b = true) (hbc : occLe b c = true) :
    occLe a c = true :=
  occLe_iff.mpr (lawful_cmpKey.le_trans (occLe_iff.mp hab) (occLe_iff.mp hbc))

theorem keyOf_eq_of_occLe_of_occLe {a b : Occ} (hab : occLe a b = true)
    (hba : occLe b a = true) : keyOf a = keyOf b :=
  (lawful_cmpKey.1 _ _).mp (lawful_cmpKey.eq_of_le_of_le (occLe_iff.mp hab) (occLe_iff.mp hba))

theorem occLe_tuplify (a b : Occ) : occLe (tuplify a) (tuplify b) = occLe a b := by
  simp [occLe, keyOf_tuplify]

/-- The propositional form of `occLe`. -/
def OccLeR (a b : Occ) : Prop := occLe a b = true

instance : DecidableRel OccLeR := fun a b => inferInstanceAs (Decidable (occLe a b = true))

instance : IsTotal Occ OccLeR :=
  ⟨fun a b => Bool.or_eq_true_iff.mp (occLe_total a b)⟩

instance : IsTrans Occ OccLeR := ⟨fun a b c => occLe_trans a b c⟩

/-- Python's `sorted` on occupants: a stable sort under `canonical_sort_key`.
Python uses a stable merge sort; `List.insertionSort` realises the same
(unique) stable sort and reduces in the kernel. -/
def sortOcc (l : List Occ) : List Occ := l.insertionSort OccLeR

/-- Python's `sorted` on a list of naturals. -/
def sortNat (l : List ℕ) : List ℕ := l.insertionSort (· ≤ ·)

theorem sortOcc_perm (l : List Occ) : (sortOcc l).Perm l := List.perm_insertionSort _ l

theorem sortOcc_sorted (l : List Occ) :
    (sortOcc l).Pairwise (fun a b => occLe a b = true) :=
  List.sorted_insertionSort OccLeR l

theorem sortNat_perm (l : List ℕ) : (sortNat l).Perm l :=
  List.perm_insertionSort _ l

theorem sortNat_sorted (l : List ℕ) :
    (sortNat l).Pairwise (fun a b => a ≤ b) :=
  List.sorted_insertionSort _ l

/-- Two sorted lists that are permutations of each other and on whose members
`le` is antisymmetric are equal.  (Mathlib's `eq_of_perm_of_sorted` needs
global antisymmetry; sorting by `canonical_sort_key` only gives antisymmetry up
to key equality, so we prove the local version.) -/
theorem eq_of_perm_of_sorted_anti {le : α → α → Bool} {l₁ l₂ : List α}
    (hp : l₁.Perm l₂)
    (hs₁ : l₁.Pairwise (fun a b => le a b = true))
    (hs₂ : l₂.Pairwise (fun a b => le a b = true))
    (hanti : ∀ a ∈ l₁, ∀ b ∈ l₁, le a b = true → le b a = true → a = b) :
    l₁ = l₂ := by
  induction l₁ generalizing l₂ with
  | nil => exact (hp.nil_eq).symm ▸ rfl
  | cons x t ih =>
    cases l₂ with
    | nil => exact absurd hp.symm (by simp)
    | cons y t₂ =>
      by_cases hxy : x = y
      · subst hxy
        have hp' := hp.cons_inv
        rw [List.pairwise_cons] at hs₁ hs₂
        rw [ih hp' hs₁.2 hs₂.2
          (fun a ha b hb h1 h2 => hanti a (List.mem_cons_of_mem _ ha)
            b (List.mem_cons_of_mem _ hb) h1 h2)]
      · have hx2 : x ∈ y :: t₂ := hp.subset (List.mem_cons_self x t)
        have hy1 : y ∈ x :: t := hp.symm.subset (List.mem_cons_self y t₂)
        have hxt2 : x ∈ t₂ := by
          rcases List.mem_cons.mp hx2 with h | h
          · exact absurd h hxy
          · exact h
        have hyt : y ∈ t := by
          rcases List.mem_cons.mp hy1 with h | h
          · exact absurd h.symm hxy
          · exact h
        rw [List.pairwise_cons] at hs₁ hs₂
        exact absurd (hanti x (List.mem_cons_self x t) y hy1 (hs₁.1 y hyt) (hs₂.1 x hxt2)) hxy

/-- Sorting two permuted occupant lists and tuplifying gives the same list,
provided occupants with equal sort keys tuplify equally (the stable sort can
order key-equal occupants differently, but the difference is erased). -/
theorem sortOcc_map_tuplify_congr {l₁ l₂ : List Occ} (hp : l₁.Perm l₂)
    (ht : ∀ a ∈ l₁, ∀ b ∈ l₁, keyOf a = keyOf b → tuplify a = tuplify b) :
    (sortOcc l₁).map tuplify = (sortOcc l₂).map tuplify := by
  apply @eq_of_perm_of_sorted_anti Occ occLe
  · exact ((sortOcc_perm l₁).trans (hp.trans (sortOcc_perm l₂).symm)).map tuplify
  · exact (sortOcc_sorted l₁).map tuplify (fun a b h => by rw [occLe_tuplify]; exact h)
  · exact (sortOcc_sorted l₂).map tuplify (fun a b h => by rw [occLe_tuplify]; exact h)
  · intro a ha b hb h1 h2
    obtain ⟨a₀, ha₀, rfl⟩ := List.mem_map.mp ha
    obtain ⟨b₀, hb₀, rfl⟩ := List.mem_map.mp hb
    rw [occLe_tuplify] at h1 h2
    have hk : keyOf a₀ = keyOf b₀ := keyOf_eq_of_occLe_of_occLe h1 h2
    exact ht a₀ ((sortOcc_perm l₁).subset ha₀) b₀ ((sortOcc_perm l₁).subset hb₀) hk

/-! ### `canonicalize` (paramselect.py lines 106–134)

```python
canonicalized = list(configuration)
if equivalent_sublattices is not None:
    for subl in equivalent_sublattices:
        subgroup = sorted([configuration[idx] for idx in sorted(subl)], key=canonical_sort_key)
        for subl_idx, conf_idx in enumerate(sorted(subl)):
            if isinstance(subgroup[subl_idx], list):
                canonicalized[conf_idx] = tuple(subgroup[subl_idx])
            else:
                canonicalized[conf_idx] = subgroup[subl_idx]
return tuple(canonicalized)
```
Each symmetry subset reads the *original* configuration, sorts the occupants it
finds at positions `sorted(subl)` and writes them back at those positions,
converting list occupants to tuples.  We model the inner loop as a list of
index/value assignments. -/

/-- Python `configuration[i]` (all uses are at in-range indices). -/
def getO (c : List Occ) (i : ℕ) : Occ := c.getD i (Occ.atom "")

/-- The assignments performed for one symmetry subset `B`. -/
def blockWrites (c : List Occ) (B : List ℕ) : List (ℕ × Occ) :=
  (sortNat B).zip ((sortOcc ((sortNat B).map (getO c))).map tuplify)

/-- Apply a list of `canonicalized[i] = v` assignments in order. -/
def applyWrites (ws : List (ℕ × Occ)) (acc : List Occ) : List Occ :=
  ws.foldl (fun a iv => a.set iv.1 iv.2) acc

/-- `canonicalize(configuration, equivalent_sublattices)`.  With symmetry `none`
the configuration is returned unchanged; the Python tuple-of-occupants result is
modelled as a list. -/
def canonicalize (c : List Occ) (S : Option (List (List ℕ))) : List Occ :=
  match S with
  | none => c
  | some blocks => blocks.foldl (fun acc B => applyWrites (blockWrites c B) acc) c

/-- All assignments of a `canonicalize` run, in execution order. -/
def allWrites (c : List Occ) (blocks : List (List ℕ)) : List (ℕ × Occ) :=
  (blocks.map (blockWrites c)).flatten

/-- The value of the last assignment to position `j`, if any. -/
def lastW (ws : List (ℕ × Occ)) (j : ℕ) : Option Occ :=
  ws.foldl (fun o iv => if iv.1 = j then some iv.2 else o) none

theorem getO_set_self {l : List Occ} {i : ℕ} (h : i < l.length) (v : Occ) :
    getO (l.set i v) i = v := by
  unfold getO
  rw [List.getD_eq_getElem _ _ (by simpa using h)]
  simp [List.getElem_set]

theorem getO_set_other {l : List Occ} {i j : ℕ} (h : i ≠ j) (v : Occ) :
    getO (l.set i v) j = getO l j := by
  unfold getO
  by_cases hj : j < l.length
  · rw [List.getD_eq_getElem _ _ (by simpa using hj), List.getD_eq_getElem _ _ hj]
    exact List.getElem_set_ne h _
  · rw [List.getD_eq_default _ _ (by simpa using Nat.le_of_not_lt hj),
      List.getD_eq_default _ _ (Nat.le_of_not_lt hj)]

theorem set_getO_self {l : List Occ} {i : ℕ} : l.set i (getO l i) = l := by
  by_cases h : i < l.length
  · apply List.ext_getElem (by simp)
    intro n h1 h2
    rw [List.getElem_set]
    split
    · rename_i hin
      subst hin
      exact (List.getD_eq_getElem l _ h).symm ▸ rfl
    · rfl
  · exact List.set_eq_of_length_le (Nat.le_of_not_lt h)

theorem length_applyWrites (ws : List (ℕ × Occ)) (acc : List Occ) :
    (applyWrites ws acc).length = acc.length := by
  induction ws generalizing acc with
  | nil => rfl
  | cons iv ws ih => rw [applyWrites, List.foldl_cons, ← applyWrites, ih, List.length_set]

theorem applyWrites_append (w₁ w₂ : List (ℕ × Occ)) (acc : List Occ) :
    applyWrites (w₁ ++ w₂) acc = applyWrites w₂ (applyWrites w₁ acc) :=
  List.foldl_append _ _ _ _

theorem lastW_foldl (ws : List (ℕ × Occ)) (j : ℕ) (init : Option Occ) :
    ws.foldl (fun o iv => if iv.1 = j then some iv.2 else o) init = (lastW ws j).or init := by
  induction ws generalizing init with
  | nil => rfl
  | cons iv ws ih =>
    have hstep : lastW (iv :: ws) j
        = (lastW ws j).or (if iv.1 = j then some iv.2 else none) := by
      show List.foldl _ (if iv.1 = j then some iv.2 else none) ws = _
      rw [ih]
    rw [List.foldl_cons, ih, hstep]
    by_cases hij : iv.1 = j
    · rw [if_pos hij, if_pos hij]
      cases lastW ws j <;> rfl
    · rw [if_neg hij, if_neg hij, Option.or_none]

theorem lastW_cons (iv : ℕ × Occ) (ws : List (ℕ × Occ)) (j : ℕ) :
    lastW (iv :: ws) j = (lastW ws j).or (if iv.1 = j then some iv.2 else none) := by
  show List.foldl _ (if iv.1 = j then some iv.2 else none) ws = _
  rw [lastW_foldl]

theorem lastW_append (w₁ w₂ : List (ℕ × Occ)) (j : ℕ) :
    lastW (w₁ ++ w₂) j = (lastW w₂ j).or (lastW w₁ j) := by
  show List.foldl _ none (w₁ ++ w₂) = _
  rw [List.foldl_append, lastW_foldl]
  rfl

theorem lastW_eq_none {ws : List (ℕ × Occ)} {j : ℕ} (h : ∀ iv ∈ ws, iv.1 ≠ j) :
    lastW ws j = none := by
  induction ws with
  | nil => rfl
  | cons iv ws ih =>
    rw [lastW_cons, ih (fun x hx => h x (List.mem_cons_of_mem _ hx))]
    simp [h iv (List.mem_cons_self _ _)]

/-- Pointwise description of `applyWrites`: the last write to a position wins;
unwritten positions keep the value of the accumulator. -/
theorem getO_applyWrites {ws : List (ℕ × Occ)} {acc : List Occ}
    (hws : ∀ iv ∈ ws, iv.1 < acc.length) (j : ℕ) :
    getO (applyWrites ws acc) j = (lastW ws j).getD (getO acc j) := by
  induction ws generalizing acc with
  | nil => rfl
  | cons iv ws ih =>
    rw [applyWrites, List.foldl_cons, ← applyWrites, lastW_cons]
    rw [ih (fun x hx => by rw [List.length_set]; exact hws x (List.mem_cons_of_mem _ hx))]
    cases hlw : lastW ws j with
    | some v => rfl
    | none =>
      by_cases hij : iv.1 = j
      · subst hij
        simp [getO_set_self (hws iv (List.mem_cons_self _ _)) iv.2]
      · simp [hij, getO_set_other hij]

theorem foldl_applyWrites_eq (c acc : List Occ) (blocks : List (List ℕ)) :
    blocks.foldl (fun a B => applyWrites (blockWrites c B) a) acc
      = applyWrites (allWrites c blocks) acc := by
  induction blocks generalizing acc with
  | nil => rfl
  | cons B rest ih =>
    rw [List.foldl_cons, ih]
    show _ = applyWrites ((List.map (blockWrites c) (B :: rest)).flatten) acc
    rw [List.map_cons, List.flatten_cons, applyWrites_append]
    rfl

theorem canonicalize_some_eq_applyWrites (c : List Occ) (blocks : List (List ℕ)) :
    canonicalize c (some blocks) = applyWrites (allWrites c blocks) c := by
  show blocks.foldl _ c = _
  exact foldl_applyWrites_eq c c blocks

theorem length_sortOcc (l : List Occ) : (sortOcc l).length = l.length :=
  (sortOcc_perm l).length_eq

theorem length_sortNat (l : List ℕ) : (sortNat l).length = l.length :=
  (sortNat_perm l).length_eq

theorem length_blockWrites (c : List Occ) (B : List ℕ) :
    (blockWrites c B).length = (sortNat B).length := by
  rw [blockWrites, List.length_zip, List.length_map, length_sortOcc, List.length_map,
    min_self]

theorem fst_mem_of_mem_blockWrites {c : List Occ} {B : List ℕ} {iv : ℕ × Occ}
    (h : iv ∈ blockWrites c B) : iv.1 ∈ B := by
  have : iv.1 ∈ sortNat B := (List.of_mem_zip (show (iv.1, iv.2) ∈ _ from h)).1
  exact (sortNat_perm B).subset this

theorem fst_mem_of_mem_allWrites {c : List Occ} {blocks : List (List ℕ)} {iv : ℕ × Occ}
    (h : iv ∈ allWrites c blocks) : ∃ B ∈ blocks, iv.1 ∈ B := by
  rw [allWrites, List.mem_flatten] at h
  obtain ⟨l, hl, hiv⟩ := h
  obtain ⟨B, hB, rfl⟩ := List.mem_map.mp hl
  exact ⟨B, hB, fst_mem_of_mem_blockWrites hiv⟩

/-- In a pairwise-disjoint list of blocks, a position determines its block. -/
theorem mem_unique_of_pairwise_disjoint {blocks : List (List ℕ)}
    (hd : blocks.Pairwise (fun B B' => ∀ i ∈ B, i ∉ B'))
    {B B' : List ℕ} (hB : B ∈ blocks) (hB' : B' ∈ blocks) {j : ℕ}
    (hj : j ∈ B) (hj' : j ∈ B') : B = B' := by
  induction blocks with
  | nil => cases hB
  | cons X rest ih =>
    rw [List.pairwise_cons] at hd
    rcases List.mem_cons.mp hB with rfl | hBr
    · rcases List.mem_cons.mp hB' with rfl | hB'r
      · rfl
      · exact absurd hj' (hd.1 B' hB'r j hj)
    · rcases List.mem_cons.mp hB' with rfl | hB'r
      · exact absurd hj (hd.1 B hBr j hj')
      · exact ih hd.2 hBr hB'r

theorem lastW_zip_nodup {pos : List ℕ} {vs : List Occ} (hn : pos.Nodup)
    (hl : vs.length = pos.length) {r : ℕ} (hr : r < pos.length) :
    lastW (pos.zip vs) (pos.getD r 0) = some (vs.getD r default) := by
  induction pos generalizing vs r with
  | nil => exact absurd hr (by simp)
  | cons i pos' ih =>
    cases vs with
    | nil => simp at hl
    | cons v vs' =>
      rw [List.zip_cons_cons, lastW_cons]
      rw [List.nodup_cons] at hn
      cases r with
      | zero =>
        have hnone : lastW (pos'.zip vs') i = none := by
          apply lastW_eq_none
          intro iv hiv hEq
          exact hn.1 (hEq ▸ (List.of_mem_zip (show (iv.1, iv.2) ∈ _ from hiv)).1)
        simp [hnone]
      | succ r' =>
        have hr' : r' < pos'.length := by simpa using hr
        have hmem : pos'.getD r' 0 ∈ pos' := by
          rw [List.getD_eq_getElem _ _ hr']
          exact List.getElem_mem hr'
        have hne : i ≠ (i :: pos').getD (r' + 1) 0 := by
          rw [List.getD_cons_succ]
          intro hEq
          exact hn.1 (hEq ▸ hmem)
        rw [if_neg hne, Option.or_none, List.getD_cons_succ, List.getD_cons_succ]
        exact ih hn.2 (by simpa using hl) hr'

theorem lastW_blockWrites {c : List Occ} {B : List ℕ} (hnd : B.Nodup) {r : ℕ}
    (hr : r < (sortNat B).length) :
    lastW (blockWrites c B) ((sortNat B).getD r 0)
      = some (((sortOcc ((sortNat B).map (getO c))).map tuplify).getD r default) := by
  apply lastW_zip_nodup ((sortNat_perm B).nodup_iff.mpr hnd)
  · rw [List.length_map, length_sortOcc, List.length_map]
  · exact hr

theorem lastW_allWrites {c : List Occ} {blocks : List (List ℕ)}
    (hd : blocks.Pairwise (fun B B' => ∀ i ∈ B, i ∉ B'))
    {B : List ℕ} (hB : B ∈ blocks) {j : ℕ} (hj : j ∈ B) :
    lastW (allWrites c blocks) j = lastW (blockWrites c B) j := by
  induction blocks with
  | nil => cases hB
  | cons X rest ih =>
    rw [List.pairwise_cons] at hd
    have hsplit : allWrites c (X :: rest) = blockWrites c X ++ allWrites c rest := by
      show (List.map _ (X :: rest)).flatten = _
      rw [List.map_cons, List.flatten_cons]
      rfl
    rw [hsplit, lastW_append]
    rcases List.mem_cons.mp hB with rfl | hBr
    · have hnone : lastW (allWrites c rest) j = none := by
        apply lastW_eq_none
        intro iv hiv hEq
        obtain ⟨B', hB', hivB'⟩ := fst_mem_of_mem_allWrites hiv
        exact hd.1 B' hB' j hj (hEq ▸ hivB')
      rw [hnone, Option.none_or]
    · have hjX : j ∉ X := fun hjX => hd.1 B hBr j hjX hj
      have hnoneX : lastW (blockWrites c X) j = none :=
        lastW_eq_none (fun iv hiv hEq => hjX (hEq ▸ fst_mem_of_mem_blockWrites hiv))
      rw [hnoneX, Option.or_none, ih hd.2 hBr]

theorem length_canonicalize (c : List Occ) (S : Option (List (List ℕ))) :
    (canonicalize c S).length = c.length := by
  cases S with
  | none => rfl
  | some blocks => rw [canonicalize_some_eq_applyWrites, length_applyWrites]

/-- Value of `canonicalize` at the `r`-th smallest position of a block. -/
theorem getO_canonicalize_block {c : List Occ} {blocks : List (List ℕ)}
    (hd : blocks.Pairwise (fun B B' => ∀ i ∈ B, i ∉ B'))
    (hrange : ∀ B ∈ blocks, ∀ i ∈ B, i < c.length)
    {B : List ℕ} (hB : B ∈ blocks) (hnd : B.Nodup) {r : ℕ}
    (hr : r < (sortNat B).length) :
    getO (canonicalize c (some blocks)) ((sortNat B).getD r 0)
      = ((sortOcc ((sortNat B).map (getO c))).map tuplify).getD r default := by
  rw [canonicalize_some_eq_applyWrites]
  rw [getO_applyWrites (fun iv hiv => by
    obtain ⟨B', hB', hivB'⟩ := fst_mem_of_mem_allWrites hiv
    exact hrange B' hB' iv.1 hivB')]
  have hmem : (sortNat B).getD r 0 ∈ B := by
    apply (sortNat_perm B).subset
    rw [List.getD_eq_getElem _ _ hr]
    exact List.getElem_mem hr
  rw [lastW_allWrites hd hB hmem, lastW_blockWrites hnd hr]
  rfl

/-- Positions outside every block are untouched by `canonicalize`. -/
theorem getO_canonicalize_notin {c : List Occ} {blocks : List (List ℕ)}
    (hrange : ∀ B ∈ blocks, ∀ i ∈ B, i < c.length)
    {j : ℕ} (hj : ∀ B ∈ blocks, j ∉ B) :
    getO (canonicalize c (some blocks)) j = getO c j := by
  rw [canonicalize_some_eq_applyWrites]
  rw [getO_applyWrites (fun iv hiv => by
    obtain ⟨B', hB', hivB'⟩ := fst_mem_of_mem_allWrites hiv
    exact hrange B' hB' iv.1 hivB')]
  have hnone : lastW (allWrites c blocks) j = none := by
    apply lastW_eq_none
    intro iv hiv hEq
    obtain ⟨B', hB', hivB'⟩ := fst_mem_of_mem_allWrites hiv
    exact hj B' hB' (hEq ▸ hivB')
  rw [hnone]
  rfl

theorem applyWrites_id {ws : List (ℕ × Occ)} {l : List Occ}
    (h : ∀ iv ∈ ws, getO l iv.1 = iv.2) : applyWrites ws l = l := by
  induction ws with
  | nil => rfl
  | cons iv ws ih =>
    rw [applyWrites, List.foldl_cons, ← applyWrites]
    rw [← h iv (List.mem_cons_self _ _), set_getO_self]
    exact ih (fun x hx => h x (List.mem_cons_of_mem _ hx))

/-- After one pass of `canonicalize`, the occupants found at a block's positions
are exactly the sorted, tuplified occupants of the original configuration. -/
theorem vals_canonicalize_block {c : List Occ} {blocks : List (List ℕ)}
    (hd : blocks.Pairwise (fun B B' => ∀ i ∈ B, i ∉ B'))
    (hrange : ∀ B ∈ blocks, ∀ i ∈ B, i < c.length)
    (hnd : ∀ B ∈ blocks, B.Nodup) {B : List ℕ} (hB : B ∈ blocks) :
    (sortNat B).map (getO (canonicalize c (some blocks)))
      = (sortOcc ((sortNat B).map (getO c))).map tuplify := by
  apply List.ext_getElem
  · rw [List.length_map, List.length_map, length_sortOcc, List.length_map]
  · intro r h1 h2
    rw [List.getElem_map]
    have hr : r < (sortNat B).length := by simpa using h1
    have hgd : (sortNat B)[r] = (sortNat B).getD r 0 := (List.getD_eq_getElem _ _ hr).symm
    rw [hgd, getO_canonicalize_block hd hrange hB (hnd B hB) hr]
    rw [List.getD_eq_getElem _ _ (by simpa using h2)]

theorem canonicalize_idem_some {c : List Occ} {blocks : List (List ℕ)}
    (hd : blocks.Pairwise (fun B B' => ∀ i ∈ B, i ∉ B'))
    (hrange : ∀ B ∈ blocks, ∀ i ∈ B, i < c.length)
    (hnd : ∀ B ∈ blocks, B.Nodup) :
    canonicalize (canonicalize c (some blocks)) (some blocks)
      = canonicalize c (some blocks) := by
  set out1 := canonicalize c (some blocks) with hout1
  rw [canonicalize_some_eq_applyWrites]
  apply applyWrites_id
  intro iv hiv
  rw [allWrites, List.mem_flatten] at hiv
  obtain ⟨ws, hws, hivws⟩ := hiv
  obtain ⟨B, hB, rfl⟩ := List.mem_map.mp hws
  have hvals : (sortNat B).map (getO out1)
      = (sortOcc ((sortNat B).map (getO c))).map tuplify :=
    vals_canonicalize_block hd hrange hnd hB
  have hsorted : ((sortNat B).map (getO out1)).Pairwise (fun a b => occLe a b = true) := by
    rw [hvals]
    exact (sortOcc_sorted _).map tuplify (fun a b h => by rw [occLe_tuplify]; exact h)
  have hsort_eq : sortOcc ((sortNat B).map (getO out1)) = (sortNat B).map (getO out1) :=
    List.Sorted.insertionSort_eq hsorted
  have htup : ((sortNat B).map (getO out1)).map tuplify = (sortNat B).map (getO out1) := by
    rw [hvals, List.map_map]
    exact List.map_congr_left (fun a _ => tuplify_tuplify a)
  have hbw : blockWrites out1 B = (sortNat B).zip ((sortNat B).map (getO out1)) := by
    rw [blockWrites, hsort_eq, htup]
  rw [hbw] at hivws
  obtain ⟨r, hr, hivr⟩ := List.mem_iff_getElem.mp hivws
  rw [List.getElem_zip] at hivr
  rw [← hivr]
  simp only [List.getElem_map]

/-! ### Permutations of sublattice positions (for claim C2) -/

/-- The configuration obtained by permuting positions: position `i` of the
result holds occupant `p i` of `c`. -/
def permuteCfg (p : ℕ → ℕ) (c : List Occ) : List Occ :=
  (List.range c.length).map (fun i => getO c (p i))

theorem length_permuteCfg (p : ℕ → ℕ) (c : List Occ) :
    (permuteCfg p c).length = c.length := by
  rw [permuteCfg, List.length_map, List.length_range]

theorem getO_permuteCfg {p : ℕ → ℕ} {c : List Occ} {j : ℕ} (hj : j < c.length) :
    getO (permuteCfg p c) j = getO c (p j) := by
  rw [permuteCfg, getO, List.getD_eq_getElem _ _ (by simp [hj]), List.getElem_map,
    List.getElem_range]

/-- A permutation consistent with a disjoint symmetry maps each block into
itself. -/
theorem block_maps_to_self {n : ℕ} {blocks : List (List ℕ)} {p : ℕ → ℕ}
    (hd : blocks.Pairwise (fun B B' => ∀ i ∈ B, i ∉ B'))
    (hrange : ∀ B ∈ blocks, ∀ i ∈ B, i < n)
    (hp_blocks : ∀ i, i < n → (∃ B ∈ blocks, i ∈ B ∧ p i ∈ B) ∨ p i = i)
    {B : List ℕ} (hB : B ∈ blocks) : ∀ j ∈ B, p j ∈ B := by
  intro j hj
  have hjn : j < n := hrange B hB j hj
  rcases hp_blocks j hjn with ⟨B', hB', hjB', hpB'⟩ | hfix
  · rwa [mem_unique_of_pairwise_disjoint hd hB hB' hj hjB']
  · rwa [hfix]

theorem sortNat_map_perm_of_blocks {n : ℕ} {blocks : List (List ℕ)} {p : ℕ → ℕ}
    (hd : blocks.Pairwise (fun B B' => ∀ i ∈ B, i ∉ B'))
    (hrange : ∀ B ∈ blocks, ∀ i ∈ B, i < n)
    (hnd : ∀ B ∈ blocks, B.Nodup)
    (hp_inj : ∀ i, i < n → ∀ j, j < n → p i = p j → i = j)
    (hp_blocks : ∀ i, i < n → (∃ B ∈ blocks, i ∈ B ∧ p i ∈ B) ∨ p i = i)
    {B : List ℕ} (hB : B ∈ blocks) :
    ((sortNat B).map p).Perm (sortNat B) := by
  have hmapB := block_maps_to_self hd hrange hp_blocks hB
  have hnodup : (sortNat B).Nodup := (sortNat_perm B).nodup_iff.mpr (hnd B hB)
  have hsub : ((sortNat B).map p) ⊆ sortNat B := by
    intro x hx
    obtain ⟨j, hj, rfl⟩ := List.mem_map.mp hx
    exact (sortNat_perm B).mem_iff.mpr (hmapB j ((sortNat_perm B).subset hj))
  have hmapnodup : ((sortNat B).map p).Nodup := by
    apply List.Nodup.map_on _ hnodup
    intro x hx y hy hxy
    exact hp_inj x (hrange B hB x ((sortNat_perm B).subset hx))
      y (hrange B hB y ((sortNat_perm B).subset hy)) hxy
  exact (List.subperm_of_subset hmapnodup hsub).perm_of_length_le (by simp)

theorem blockWrites_permuteCfg {c : List Occ} {blocks : List (List ℕ)} {p : ℕ → ℕ}
    (hd : blocks.Pairwise (fun B B' => ∀ i ∈ B, i ∉ B'))
    (hrange : ∀ B ∈ blocks, ∀ i ∈ B, i < c.length)
    (hnd : ∀ B ∈ blocks, B.Nodup)
    (hp_inj : ∀ i, i < c.length → ∀ j, j < c.length → p i = p j → i = j)
    (hp_blocks : ∀ i, i < c.length → (∃ B ∈ blocks, i ∈ B ∧ p i ∈ B) ∨ p i = i)
    (hties : ∀ B ∈ blocks, ∀ i ∈ B, ∀ j ∈ B,
      keyOf (getO c i) = keyOf (getO c j) → tuplify (getO c i) = tuplify (getO c j))
    {B : List ℕ} (hB : B ∈ blocks) :
    blockWrites (permuteCfg p c) B = blockWrites c B := by
  rw [blockWrites, blockWrites]
  congr 1
  have hmapB := block_maps_to_self hd hrange hp_blocks hB
  have hvals : (sortNat B).map (getO (permuteCfg p c)) = ((sortNat B).map p).map (getO c) := by
    rw [List.map_map]
    apply List.map_congr_left
    intro j hj
    exact getO_permuteCfg (hrange B hB j ((sortNat_perm B).subset hj))
  rw [hvals]
  apply sortOcc_map_tuplify_congr
  · exact (sortNat_map_perm_of_blocks hd hrange hnd hp_inj hp_blocks hB).map (getO c)
  · intro a ha b hb hk
    obtain ⟨i, hi, rfl⟩ := List.mem_map.mp ha
    obtain ⟨j, hj, rfl⟩ := List.mem_map.mp hb
    obtain ⟨i₀, hi₀, rfl⟩ := List.mem_map.mp hi
    obtain ⟨j₀, hj₀, rfl⟩ := List.mem_map.mp hj
    exact hties B hB _ (hmapB i₀ ((sortNat_perm B).subset hi₀))
      _ (hmapB j₀ ((sortNat_perm B).subset hj₀)) hk

/-- C2 (amended): permuting positions consistently with a disjoint symmetry
leaves `canonicalize` invariant, provided occupants with equal sort keys within
a block tuplify equally. -/
theorem canonicalize_permuteCfg_eq
    (c : List Occ) (blocks : List (List ℕ)) (p : ℕ → ℕ)
    (hd : blocks.Pairwise (fun B B' => ∀ i ∈ B, i ∉ B'))
    (hrange : ∀ B ∈ blocks, ∀ i ∈ B, i < c.length)
    (hnd : ∀ B ∈ blocks, B.Nodup)
    (hp_inj : ∀ i, i < c.length → ∀ j, j < c.length → p i = p j → i = j)
    (hp_blocks : ∀ i, i < c.length → (∃ B ∈ blocks, i ∈ B ∧ p i ∈ B) ∨ p i = i)
    (hties : ∀ B ∈ blocks, ∀ i ∈ B, ∀ j ∈ B,
      keyOf (getO c i) = keyOf (getO c j) → tuplify (getO c i) = tuplify (getO c j)) :
    canonicalize (permuteCfg p c) (some blocks) = canonicalize c (some blocks) := by
  have hlen : (permuteCfg p c).length = c.length := length_permuteCfg p c
  have hws : allWrites (permuteCfg p c) blocks = allWrites c blocks := by
    rw [allWrites, allWrites]
    congr 1
    apply List.map_congr_left
    intro B hB
    exact blockWrites_permuteCfg hd hrange hnd hp_inj hp_blocks hties hB
  have hgoal : ∀ j, getO (canonicalize (permuteCfg p c) (some blocks)) j
      = getO (canonicalize c (some blocks)) j := by
    intro j
    rw [canonicalize_some_eq_applyWrites, canonicalize_some_eq_applyWrites, hws]
    rw [getO_applyWrites (fun iv hiv => by
      obtain ⟨B', hB', hivB'⟩ := fst_mem_of_mem_allWrites hiv
      rw [hlen]
      exact hrange B' hB' iv.1 hivB')]
    rw [getO_applyWrites (fun iv hiv => by
      obtain ⟨B', hB', hivB'⟩ := fst_mem_of_mem_allWrites hiv
      exact hrange B' hB' iv.1 hivB')]
    cases hlw : lastW (allWrites c blocks) j with
    | some v => rfl
    | none =>
      have hnotin : ∀ B ∈ blocks, j ∉ B := by
        intro B hB hjB
        have hjs : j ∈ sortNat B := (sortNat_perm B).mem_iff.mpr hjB
        obtain ⟨r, hr, hjr⟩ := List.mem_iff_getElem.mp hjs
        have hgd : (sortNat B).getD r 0 = j := by
          rw [List.getD_eq_getElem _ _ hr, hjr]
        have := lastW_allWrites (c := c) hd hB hjB
        rw [← hgd, lastW_blockWrites (hnd B hB) hr, hgd] at this
        rw [this] at hlw
        cases hlw
      simp only [Option.getD_none]
      rcases Nat.lt_or_ge j c.length with hj | hj
      · rw [getO_permuteCfg hj]
        rcases hp_blocks j hj with ⟨B, hB, hjB, _⟩ | hfix
        · exact absurd hjB (hnotin B hB)
        · rw [hfix]
      · rw [getO, getO, List.getD_eq_default _ _ (by rw [hlen]; exact hj),
          List.getD_eq_default _ _ hj]
  apply List.ext_getElem
  · rw [length_canonicalize, length_canonicalize, hlen]
  intro j h1 h2
  rw [← List.getD_eq_getElem _ (Occ.atom "") h1, ← List.getD_eq_getElem _ (Occ.atom "") h2]
  exact hgoal j

/-- The swap of positions 0 and 1, as a permutation of ℕ. -/
def swap01 (i : ℕ) : ℕ := if i = 0 then 1 else if i = 1 then 0 else i

/-- The configuration of claim C2's counterexample: the scalar species `"AB"`
and the pair `("A", "B")` have equal `canonical_sort_key`s (Python iterates a
string character by character), so the stable sort keeps them in input order
and swapping them inside a symmetry block changes the canonical form. -/
def cC2 : List Occ := [Occ.atom "AB", Occ.seq false ["A", "B"]]

/-- **C2, counterexample.**  The claim "for every configuration `c`, disjoint
symmetry `S` and permutation `p` exchanging positions only within a single
index-set, `canonicalize (p c) S = canonicalize c S`" fails at
`c = ("AB", ("A","B"))`, `S = {{0,1}}`, `p = swap of 0 and 1`: the swapped
configuration canonicalizes to itself, not to `canonicalize c S`, because the
two occupants compare equal under `canonical_sort_key` and Python's sort is
stable. -/
theorem C2_counterexample :
    ([[0, 1]] : List (List ℕ)).Pairwise (fun B B' => ∀ i ∈ B, i ∉ B') ∧
    (∀ B ∈ ([[0, 1]] : List (List ℕ)), ∀ i ∈ B, i < cC2.length) ∧
    (∀ B ∈ ([[0, 1]] : List (List ℕ)), B.Nodup) ∧
    (∀ i, i < cC2.length → swap01 i < cC2.length) ∧
    (∀ i, i < cC2.length → ∀ j, j < cC2.length → swap01 i = swap01 j → i = j) ∧
    (∀ i, i < cC2.length →
      (∃ B ∈ ([[0, 1]] : List (List ℕ)), i ∈ B ∧ swap01 i ∈ B) ∨ swap01 i = i) ∧
    canonicalize (permuteCfg swap01 cC2) (some [[0, 1]])
      ≠ canonicalize cC2 (some [[0, 1]]) := by
  decide

/-- **C2 (amended).**  For every configuration `c`, disjoint symmetry `S`
(blocks without repeated indices, indices in range) and permutation `p` of the
positions that only exchanges positions lying within a single index-set of `S`,
`canonicalize (p c) S = canonicalize c S` — provided additionally that any two
occupants within one block having equal `canonical_sort_key`s are equal after
list-to-tuple conversion (the condition the counterexample violates). -/
theorem C2_canonicalize_symmetry_invariant
    (c : List Occ) (blocks : List (List ℕ)) (p : ℕ → ℕ)
    (hd : blocks.Pairwise (fun B B' => ∀ i ∈ B, i ∉ B'))
    (hrange : ∀ B ∈ blocks, ∀ i ∈ B, i < c.length)
    (hnd : ∀ B ∈ blocks, B.Nodup)
    (hp_inj : ∀ i, i < c.length → ∀ j, j < c.length → p i = p j → i = j)
    (hp_blocks : ∀ i, i < c.length → (∃ B ∈ blocks, i ∈ B ∧ p i ∈ B) ∨ p i = i)
    (hties : ∀ B ∈ blocks, ∀ i ∈ B, ∀ j ∈ B,
      keyOf (getO c i) = keyOf (getO c j) → tuplify (getO c i) = tuplify (getO c j)) :
    canonicalize (permuteCfg p c) (some blocks) = canonicalize c (some blocks) :=
  canonicalize_permuteCfg_eq c blocks p hd hrange hnd hp_inj hp_blocks hties

/-- **C2 witness**: scenario B of the specification — a two-sublattice phase
with symmetry `{{0,1}}`; `('A','B')` and its swap `('B','A')` canonicalize
identically. -/
theorem C2_canonicalize_symmetry_invariant_witness :
    (([[0, 1]] : List (List ℕ)).Pairwise (fun B B' => ∀ i ∈ B, i ∉ B') ∧
     (∀ B ∈ ([[0, 1]] : List (List ℕ)), ∀ i ∈ B,
        i < ([Occ.atom "A", Occ.atom "B"] : List Occ).length) ∧
     (∀ B ∈ ([[0, 1]] : List (List ℕ)), B.Nodup)) ∧
    canonicalize (permuteCfg swap01 [Occ.atom "A", Occ.atom "B"]) (some [[0, 1]])
      = canonicalize [Occ.atom "A", Occ.atom "B"] (some [[0, 1]]) := by
  refine ⟨⟨by decide, by decide, by decide⟩, ?_⟩
  exact C2_canonicalize_symmetry_invariant [Occ.atom "A", Occ.atom "B"] [[0, 1]] swap01
    (by decide) (by decide) (by decide) (by decide) (by decide) (by decide)

/-- **C3.**  For every configuration `c` and every symmetry `S` (a disjoint
family of index-sets with in-range indices, or absent), canonicalizing twice
gives the same result as canonicalizing once. -/
theorem C3_canonicalize_idempotent (c : List Occ) (S : Option (List (List ℕ)))
    (hd : ∀ blocks, S = some blocks → blocks.Pairwise (fun B B' => ∀ i ∈ B, i ∉ B'))
    (hrange : ∀ blocks, S = some blocks → ∀ B ∈ blocks, ∀ i ∈ B, i < c.length)
    (hnd : ∀ blocks, S = some blocks → ∀ B ∈ blocks, B.Nodup) :
    canonicalize (canonicalize c S) S = canonicalize c S := by
  cases S with
  | none => rfl
  | some blocks =>
    exact canonicalize_idem_some (hd blocks rfl) (hrange blocks rfl) (hnd blocks rfl)

/-- **C3 witness** at the configuration `('B', 'A', ['C','A'])` with symmetry
`{{0,1}}` (and, implicitly by `rfl`-evaluation, at `S = None`). -/
theorem C3_canonicalize_idempotent_witness :
    ((∀ blocks, (some [[0, 1]] : Option (List (List ℕ))) = some blocks →
        blocks.Pairwise (fun B B' => ∀ i ∈ B, i ∉ B')) ∧
     (∀ blocks, (some [[0, 1]] : Option (List (List ℕ))) = some blocks →
        ∀ B ∈ blocks, ∀ i ∈ B,
          i < ([Occ.atom "B", Occ.atom "A", Occ.seq true ["C", "A"]] : List Occ).length) ∧
     (∀ blocks, (some [[0, 1]] : Option (List (List ℕ))) = some blocks →
        ∀ B ∈ blocks, B.Nodup)) ∧
    canonicalize (canonicalize [Occ.atom "B", Occ.atom "A", Occ.seq true ["C", "A"]]
        (some [[0, 1]])) (some [[0, 1]])
      = canonicalize [Occ.atom "B", Occ.atom "A", Occ.seq true ["C", "A"]]
          (some [[0, 1]]) := by
  have h1 : ∀ blocks, (some [[0, 1]] : Option (List (List ℕ))) = some blocks →
      blocks.Pairwise (fun B B' => ∀ i ∈ B, i ∉ B') := by
    intro blocks h
    injection h with h'
    subst h'
    decide
  have h2 : ∀ blocks, (some [[0, 1]] : Option (List (List ℕ))) = some blocks →
      ∀ B ∈ blocks, ∀ i ∈ B,
        i < ([Occ.atom "B", Occ.atom "A", Occ.seq true ["C", "A"]] : List Occ).length := by
    intro blocks h
    injection h with h'
    subst h'
    decide
  have h3 : ∀ blocks, (some [[0, 1]] : Option (List (List ℕ))) = some blocks →
      ∀ B ∈ blocks, B.Nodup := by
    intro blocks h
    injection h with h'
    subst h'
    decide
  exact ⟨⟨h1, h2, h3⟩, C3_canonicalize_idempotent _ _ h1 h2 h3⟩

/-! ### `_generate_symmetric_group` (paramselect.py lines 516–541)

```python
configurations = [_list_to_tuple(configuration)]
permutation = np.array(symmetry, dtype=np.object)

def permute(x):
    if len(x) == 0:
        return x
    x[0] = np.roll(x[0], 1)
    x[:] = np.roll(x, 1, axis=0)
    return x

while np.any(np.array(symmetry, dtype=np.object) != permute(permutation)):
    ... append permuted configuration ...
return sorted(set(configurations), key=canonical_sort_key)
```

The loop advances `permutation` by one `permute` step per condition check and
stops when it returns (structurally) to `symmetry`.  `np.array(None)` is a
0-dimensional array, so `len(x)` inside `permute` raises `TypeError` when the
symmetry is `None`; we model that call as an `Except.error`. -/

/-- `np.roll(x, 1)`: cyclically shift forward by one (last element to front). -/
def roll1 (l : List α) : List α := l.rotate (l.length - 1)

/-- One `permute` step: roll the first block by one, then roll the list of
blocks by one. -/
def permute : List (List ℕ) → List (List ℕ)
  | [] => []
  | b :: rest => roll1 (roll1 b :: rest)

/-- `_list_to_tuple` (paramselect.py lines 498–504) on a configuration:
convert every sequence occupant to a tuple occupant. -/
def listToTuple (c : List Occ) : List Occ := c.map tuplify

/-- The configuration appended for the current permutation `p`: start from the
original tuplified configuration and overwrite, for each original symmetry
block, its positions with the occupants the *original* configuration holds at
the indices of the corresponding row of `p`. -/
def buildConf (c : List Occ) (s : List (List ℕ)) (p : List (List ℕ)) : List Occ :=
  let subgroups := p.map (fun subl => subl.map (getO c))
  (s.zip subgroups).foldl
    (fun conf sg => (sg.1.zip sg.2).foldl (fun cf iv => cf.set iv.1 iv.2) conf)
    (listToTuple c)

/-- Least common multiple of the (positive) block lengths. -/
def lcmLens (s : List (List ℕ)) : ℕ :=
  s.foldr (fun B acc => Nat.lcm (max B.length 1) acc) 1

/-- Enough fuel for the walk to return to the original symmetry. -/
def genFuel (s : List (List ℕ)) : ℕ := s.length * lcmLens s + 1

/-- The `while` loop: each iteration advances the permutation once; the loop
exits when it equals the original symmetry again.  `fuel` bounds the number of
iterations; `genFuel` is provably sufficient (claim C6). -/
def genLoop (s : List (List ℕ)) (c : List Occ) :
    ℕ → List (List ℕ) → List (List Occ) → List (List Occ)
  | 0, _, acc => acc
  | fuel + 1, p, acc =>
    let p' := permute p
    if p' = s then acc else genLoop s c fuel p' (acc ++ [buildConf c s p'])

/-- The propositional form of `cfgLe`. -/
def CfgLeR (a b : List Occ) : Prop := cfgLe a b = true

instance : DecidableRel CfgLeR := fun a b => inferInstanceAs (Decidable (cfgLe a b = true))

/-- `sorted(set(configurations), key=canonical_sort_key)`.  Python's `set` is
modelled by `dedup`; the sort is the stable sort under the configuration key. -/
def generateSymmetricGroupList (c : List Occ) (s : List (List ℕ)) : List (List Occ) :=
  ((genLoop s c (genFuel s) s [listToTuple c]).dedup).insertionSort CfgLeR

/-- `_generate_symmetric_group(configuration, symmetry)`: with `symmetry = None`
the call raises `TypeError` (`np.array(None)` is 0-dimensional and has no
`len`), modelled as an error; otherwise the walk above. -/
def generateSymmetricGroup (c : List Occ) (sym : Option (List (List ℕ))) :
    Except String (List (List Occ)) :=
  match sym with
  | none => .error "TypeError: len() of unsized object"
  | some s => .ok (generateSymmetricGroupList c s)

theorem roll1_append_singleton (l : List α) (z : α) : roll1 (l ++ [z]) = z :: l := by
  rw [roll1]
  have hlen : (l ++ [z]).length - 1 = l.length := by simp
  rw [hlen, List.rotate_eq_drop_append_take (by simp)]
  simp

/-- The key invariant of the cyclic walk: starting from `a ++ t` (nonempty
front block list `a`, nonempty back `t`), after `|t|` steps the state is
`t.headI` followed by the rolled blocks of `t.tail` and of `a`'s head, then
`a`'s tail. -/
theorem permute_chunk : ∀ (t : List (List ℕ)) (ah : List ℕ) (at' : List (List ℕ)), t ≠ [] →
    permute^[t.length] ((ah :: at') ++ t)
      = t.headI :: ((t.tail ++ [ah]).map roll1 ++ at') := by
  intro t
  induction t using List.reverseRecOn with
  | nil => intro ah at' h; exact absurd rfl h
  | append_singleton t₂ z ih =>
    intro ah at' _
    cases t₂ with
    | nil =>
      simp only [List.nil_append, List.length_singleton]
      rw [Function.iterate_one]
      show roll1 (roll1 ah :: (at' ++ [z])) = _
      rw [show roll1 ah :: (at' ++ [z]) = (roll1 ah :: at') ++ [z] by simp]
      rw [roll1_append_singleton]
      simp
    | cons y t₂' =>
      have hlen : ((y :: t₂') ++ [z]).length = (y :: t₂').length + 1 := by simp
      rw [hlen, Function.iterate_succ_apply]
      have hstep : permute ((ah :: at') ++ ((y :: t₂') ++ [z]))
          = (z :: roll1 ah :: at') ++ (y :: t₂') := by
        show roll1 (roll1 ah :: (at' ++ ((y :: t₂') ++ [z]))) = _
        rw [show roll1 ah :: (at' ++ ((y :: t₂') ++ [z]))
            = (roll1 ah :: (at' ++ (y :: t₂'))) ++ [z] by simp]
        rw [roll1_append_singleton]
        simp
      rw [hstep, ih z (roll1 ah :: at') (by simp)]
      simp

/-- After `|s|` steps every block has been rolled once and the blocks are back
in their original order. -/
theorem permute_iter_length (s : List (List ℕ)) :
    permute^[s.length] s = s.map roll1 := by
  cases s with
  | nil => rfl
  | cons h rest =>
    cases rest with
    | nil =>
      rw [List.length_singleton, Function.iterate_one]
      show roll1 [roll1 h] = _
      simp [roll1]
    | cons y rest' =>
      have hlen : (h :: y :: rest').length = (y :: rest').length + 1 := rfl
      rw [hlen, Function.iterate_succ_apply']
      rw [show (h :: y :: rest') = (h :: []) ++ (y :: rest') from rfl]
      rw [permute_chunk (y :: rest') h [] (by simp)]
      simp only [List.headI_cons, List.tail_cons, List.append_nil, List.map_append,
        List.map_cons, List.map_nil]
      show roll1 (roll1 y :: (rest'.map roll1 ++ [roll1 h])) = _
      rw [show roll1 y :: (rest'.map roll1 ++ [roll1 h])
          = (roll1 y :: rest'.map roll1) ++ [roll1 h] by simp]
      rw [roll1_append_singleton]
      simp

theorem roll1_iterate (l : List α) (n : ℕ) :
    roll1^[n] l = l.rotate (n * (l.length - 1)) := by
  induction n with
  | zero => simp
  | succ n ih =>
    rw [Function.iterate_succ_apply', ih, roll1, List.length_rotate, List.rotate_rotate,
      Nat.succ_mul]

theorem rotate_eq_self_of_dvd {l : List α} {n : ℕ} (h : l.length ∣ n) :
    l.rotate n = l := by
  rcases Nat.eq_zero_or_pos l.length with h0 | hpos
  · rw [List.length_eq_zero] at h0
    subst h0
    simp
  · obtain ⟨q, rfl⟩ := h
    rw [← List.rotate_mod, Nat.mul_mod_right, List.rotate_zero]

theorem map_roll1_iterate (k : ℕ) (l : List (List ℕ)) :
    (List.map (roll1 (α := ℕ)))^[k] l = l.map (roll1^[k]) := by
  induction k generalizing l with
  | zero => simp
  | succ k ih =>
    rw [Function.iterate_succ_apply, ih, List.map_map]
    rfl

theorem permute_iter_mul : ∀ (k : ℕ) (s : List (List ℕ)),
    permute^[s.length * k] s = (List.map roll1)^[k] s := by
  intro k
  induction k with
  | zero => intro s; simp
  | succ k ih =>
    intro s
    have h1 : s.length * (k + 1) = s.length * k + s.length := by ring
    rw [h1, Function.iterate_add_apply, permute_iter_length]
    have hlen : s.length = (s.map roll1).length := by simp
    rw [Function.iterate_succ_apply, hlen]
    exact ih (s.map roll1)

theorem length_dvd_lcmLens {s : List (List ℕ)} {B : List ℕ} (hB : B ∈ s) :
    max B.length 1 ∣ lcmLens s := by
  induction s with
  | nil => cases hB
  | cons X rest ih =>
    rcases List.mem_cons.mp hB with rfl | h
    · exact Nat.dvd_lcm_left _ _
    · exact dvd_trans (ih h) (Nat.dvd_lcm_right _ _)

theorem lcmLens_pos (s : List (List ℕ)) : 0 < lcmLens s := by
  induction s with
  | nil => exact Nat.one_pos
  | cons X rest ih => exact Nat.lcm_pos (by omega) ih

/-- The cyclic walk of `_generate_symmetric_group` returns to the original
symmetry after `|s| * lcm(block lengths)` steps. -/
theorem permute_period (s : List (List ℕ)) :
    permute^[s.length * lcmLens s] s = s := by
  rw [permute_iter_mul, map_roll1_iterate]
  have h : ∀ B ∈ s, roll1^[lcmLens s] B = B := by
    intro B hB
    rw [roll1_iterate]
    apply rotate_eq_self_of_dvd
    rcases Nat.eq_zero_or_pos B.length with h0 | hpos
    · simp [h0]
    · have hmax : max B.length 1 = B.length := by omega
      have hdvd : B.length ∣ lcmLens s := hmax ▸ length_dvd_lcmLens hB
      exact hdvd.mul_right _
  exact (List.map_congr_left h).trans (List.map_id s)

theorem mem_acc_genLoop (s : List (List ℕ)) (c : List Occ) :
    ∀ (fuel : ℕ) (p : List (List ℕ)) (acc : List (List Occ)) (x : List Occ),
      x ∈ acc → x ∈ genLoop s c fuel p acc := by
  intro fuel
  induction fuel with
  | zero => intro p acc x hx; exact hx
  | succ fuel ih =>
    intro p acc x hx
    rw [genLoop]
    split
    · exact hx
    · exact ih _ _ _ (List.mem_append_left _ hx)

/-- **C6.**  For every configuration and every symmetry given as a list of
index-lists, the cyclic rotation walk of `_generate_symmetric_group` returns to
a permutation structurally equal to the original symmetry after finitely many
(positive, at most `genFuel`) steps — so the `while` loop terminates — and the
returned set contains the original configuration in tuple form. -/
theorem C6_generate_symmetric_group_terminates (c : List Occ) (s : List (List ℕ)) :
    (∃ k, 0 < k ∧ k ≤ genFuel s ∧ permute^[k] s = s) ∧
      listToTuple c ∈ generateSymmetricGroupList c s := by
  constructor
  · by_cases hs : s = []
    · subst hs
      exact ⟨1, Nat.one_pos, by simp [genFuel], rfl⟩
    · refine ⟨s.length * lcmLens s, ?_, ?_, permute_period s⟩
      · have h1 : 0 < s.length := List.length_pos.mpr hs
        have h2 := lcmLens_pos s
        positivity
      · rw [genFuel]
        omega
  · rw [generateSymmetricGroupList]
    apply (List.perm_insertionSort _ _).mem_iff.mpr
    rw [List.mem_dedup]
    exact mem_acc_genLoop s c _ s _ _ (List.mem_singleton_self _)

/-- **C7** (the code bug): `phase_fit` calls `_generate_symmetric_group` with
`symmetry = None` whenever a phase declares no symmetry, but `np.array(None)`
is a 0-dimensional array, so `len(x)` inside `permute` raises `TypeError`
instead of returning the singleton set — while the empty symmetry `[]` does
return the singleton containing the original configuration in tuple form. -/
theorem C7_generate_symmetric_group_none_raises :
    generateSymmetricGroup [Occ.atom "A"] none
        = Except.error "TypeError: len() of unsized object" ∧
      generateSymmetricGroup [Occ.atom "A"] (some [])
        = Except.ok [[Occ.atom "A"]] :=
  ⟨rfl, rfl⟩

/-! ### `_get_data` temperature filter (paramselect.py lines 181–185)

```python
temp_filter = np.atleast_1d(data['conditions']['T']) >= 298.15
desired_data[idx]['conditions']['T'] = np.atleast_1d(data['conditions']['T'])[temp_filter]
desired_data[idx]['values'] = desired_data[idx]['values'][..., temp_filter, :]
```

The record's temperature array is a list of floats (modelled by `ℚ`); the
`values` array is sliced with the same boolean mask along its temperature axis,
so we model it as a list with one (opaque) slice per temperature entry. -/

/-- The boolean mask `T >= 298.15`. -/
def tempMask (T : List ℚ) : List Bool := T.map (fun t => decide (298.15 ≤ t))

/-- numpy boolean-mask selection: keep the entries whose mask bit is set. -/
def applyMask {α : Type} (mask : List Bool) (xs : List α) : List α :=
  ((mask.zip xs).filter (fun bv => bv.1)).map (fun bv => bv.2)

/-- The temperature filter of `_get_data`: filter the temperature array and
slice the values' temperature axis with the same mask. -/
def filterTemps {α : Type} (T : List ℚ) (vals : List α) : List ℚ × List α :=
  (applyMask (tempMask T) T, applyMask (tempMask T) vals)

theorem applyMask_self {α : Type} (p : α → Bool) (l : List α) :
    applyMask (l.map p) l = l.filter p := by
  induction l with
  | nil => rfl
  | cons x xs ih =>
    cases hp : p x <;>
      simp only [applyMask, List.map_cons, List.zip_cons_cons, List.filter_cons, hp,
        List.map_cons, ← ih, applyMask] <;>
      simp

theorem applyMask_nil_right {α : Type} (m : List Bool) : applyMask m ([] : List α) = [] := by
  cases m <;> rfl

theorem applyMask_cons_false {α : Type} (m : List Bool) (x : α) (xs : List α) :
    applyMask (false :: m) (x :: xs) = applyMask m xs := by
  simp [applyMask, List.zip_cons_cons, List.filter_cons]

theorem applyMask_cons_true {α : Type} (m : List Bool) (x : α) (xs : List α) :
    applyMask (true :: m) (x :: xs) = x :: applyMask m xs := by
  simp [applyMask, List.zip_cons_cons, List.filter_cons]

theorem applyMask_length_eq {α β : Type} (m : List Bool) (xs : List α) (ys : List β)
    (h : xs.length = ys.length) :
    (applyMask m xs).length = (applyMask m ys).length := by
  induction m generalizing xs ys with
  | nil => rfl
  | cons b m ih =>
    cases xs with
    | nil =>
      cases ys with
      | nil => rfl
      | cons y ys => simp at h
    | cons x xs =>
      cases ys with
      | nil => simp at h
      | cons y ys =>
        simp only [List.length_cons, Nat.add_right_cancel_iff] at h
        cases b
        · rw [applyMask_cons_false, applyMask_cons_false]
          exact ih xs ys h
        · rw [applyMask_cons_true, applyMask_cons_true]
          simp [ih xs ys h]

theorem applyMask_zip {α β : Type} (m : List Bool) (xs : List α) (ys : List β)
    (h : xs.length = ys.length) :
    (applyMask m xs).zip (applyMask m ys) = applyMask m (xs.zip ys) := by
  induction m generalizing xs ys with
  | nil => rfl
  | cons b m ih =>
    cases xs with
    | nil =>
      cases ys with
      | nil => rfl
      | cons y ys => simp at h
    | cons x xs =>
      cases ys with
      | nil => simp at h
      | cons y ys =>
        simp only [List.length_cons, Nat.add_right_cancel_iff] at h
        rw [List.zip_cons_cons]
        cases b
        · rw [applyMask_cons_false, applyMask_cons_false, applyMask_cons_false]
          exact ih xs ys h
        · rw [applyMask_cons_true, applyMask_cons_true, applyMask_cons_true,
            List.zip_cons_cons, ih xs ys h]

theorem applyMask_fstP {α β : Type} (p : α → Bool) (xs : List α) (ys : List β) :
    applyMask (xs.map p) (xs.zip ys) = (xs.zip ys).filter (fun v => p v.1) := by
  induction xs generalizing ys with
  | nil => rfl
  | cons x xs ih =>
    cases ys with
    | nil =>
      rw [List.zip_nil_right, applyMask_nil_right]
      rfl
    | cons y ys =>
      rw [List.map_cons, List.zip_cons_cons, List.filter_cons]
      cases hp : p x
      · rw [applyMask_cons_false, ih]
        simp [hp]
      · rw [applyMask_cons_true, ih]
        simp [hp]

theorem applyMask_all_true {α : Type} (m : List Bool) (xs : List α)
    (hall : ∀ b ∈ m, b = true) (hlen : m.length = xs.length) :
    applyMask m xs = xs := by
  induction m generalizing xs with
  | nil =>
    cases xs with
    | nil => rfl
    | cons x xs => simp at hlen
  | cons b m ih =>
    cases xs with
    | nil => simp at hlen
    | cons x xs =>
      have hb : b = true := hall b (List.mem_cons_self _ _)
      subst hb
      simp only [List.length_cons, Nat.add_right_cancel_iff] at hlen
      rw [applyMask_cons_true, ih xs (fun b hb => hall b (List.mem_cons_of_mem _ hb)) hlen]

/-- **C8.**  The `_get_data` temperature filter removes from `conditions.T`
every entry below 298.15 K and removes the corresponding temperature-axis
slices of `values` identically: the filtered temperature list is exactly the
`≥ 298.15` filter of the original, the two filtered lists have equal length,
both are unchanged when no entry is below 298.15 K, and position-for-position
the surviving (temperature, slice) pairs are exactly the pairs whose
temperature is `≥ 298.15`. -/
theorem C8_temperature_filter {α : Type} (T : List ℚ) (vals : List α)
    (hlen : vals.length = T.length) :
    (filterTemps T vals).1 = T.filter (fun t => decide (298.15 ≤ t)) ∧
    (filterTemps T vals).2.length = (filterTemps T vals).1.length ∧
    ((∀ t ∈ T, 298.15 ≤ t) → (filterTemps T vals).1 = T ∧ (filterTemps T vals).2 = vals) ∧
    (filterTemps T vals).1.zip (filterTemps T vals).2
      = (T.zip vals).filter (fun tv => decide (298.15 ≤ tv.1)) := by
  refine ⟨applyMask_self _ T, ?_, ?_, ?_⟩
  · exact applyMask_length_eq _ _ _ (by rw [hlen])
  · intro hall
    have hmask : ∀ b ∈ tempMask T, b = true := by
      intro b hb
      obtain ⟨t, ht, rfl⟩ := List.mem_map.mp hb
      simp [hall t ht]
    constructor
    · exact applyMask_all_true _ _ hmask (by simp [tempMask])
    · exact applyMask_all_true _ _ hmask (by simp [tempMask, hlen])
  · rw [show (filterTemps T vals).1 = applyMask (tempMask T) T from rfl,
      show (filterTemps T vals).2 = applyMask (tempMask T) vals from rfl,
      applyMask_zip _ _ _ hlen.symm, tempMask, applyMask_fstP]

/-- **C8 witness**: `T = [250, 300, 500]`, three value slices; the 250 K entry
and its slice are removed together. -/
theorem C8_temperature_filter_witness :
    (([10, 20, 30] : List ℚ).length = ([250, 300, 500] : List ℚ).length) ∧
    ((filterTemps [250, 300, 500] ([10, 20, 30] : List ℚ)).1
        = ([250, 300, 500] : List ℚ).filter (fun t => decide (298.15 ≤ t)) ∧
      (filterTemps [250, 300, 500] ([10, 20, 30] : List ℚ)).2.length
        = (filterTemps [250, 300, 500] ([10, 20, 30] : List ℚ)).1.length ∧
      ((∀ t ∈ ([250, 300, 500] : List ℚ), 298.15 ≤ t) →
        (filterTemps [250, 300, 500] ([10, 20, 30] : List ℚ)).1 = [250, 300, 500] ∧
        (filterTemps [250, 300, 500] ([10, 20, 30] : List ℚ)).2 = [10, 20, 30]) ∧
      (filterTemps [250, 300, 500] ([10, 20, 30] : List ℚ)).1.zip
          (filterTemps [250, 300, 500] ([10, 20, 30] : List ℚ)).2
        = (([250, 300, 500] : List ℚ).zip ([10, 20, 30] : List ℚ)).filter
            (fun tv => decide (298.15 ≤ tv.1))) :=
  ⟨rfl, C8_temperature_filter [250, 300, 500] [10, 20, 30] rfl⟩

/-! ### `fit_formation_energy` (paramselect.py lines 297–399)

Structure of the source:

* lines 329–334: default feature lists for `CPM_FORM`, `SM_FORM`, `HM_FORM`;
* lines 335–346: if any occupant of the configuration is a list or tuple, the
  features are expanded by the Redlich–Kister cross product and
  `raise ValueError('Endmember dictionary must be specified ...')` when
  `endmembers is None`;
* lines 348–351: `parameters[coef] = 0` for every coefficient of every feature;
* lines 353–398: three blocks (heat capacity, entropy, enthalpy), each of which
  retrieves data via `_get_data` and, only when the result is non-empty,
  updates `parameters` with the `_fit_parameters` result for that property's
  features.

The dataset retrieval is abstracted by `dataFor`, and the feature-matrix
construction plus regression by `fitFor`; the claims C5/C9 hold for every value
of these oracles (which is what "fails before any regression" and "skips the
property silently" mean). -/

/-- `any(isinstance(conf, (list, tuple)) for conf in configuration)`. -/
def isInteractionConf (c : List Occ) : Bool :=
  c.any (fun o => match o with | .atom _ => false | .seq _ _ => true)

/-- `tinydb.search` followed by per-record slicing: the records matching the
query predicate, post-processed record by record (`_get_data`, lines 149–186). -/
def get_data {R : Type} (records : List R) (q : R → Bool) (post : R → R) : List R :=
  (records.filter q).map post

/-- Association-list lookup (Python `dict` access by key). -/
def dlookup {F : Type} [DecidableEq F] (f : F) : List (F × ℚ) → Option ℚ
  | [] => none
  | kv :: rest => if kv.1 = f then some kv.2 else dlookup f rest

/-- Python `dict.update`: keys of `upd` take `upd`'s value, other keys keep
their value (modelled up to key order, which the claims do not observe). -/
def dictUpdate {F : Type} [DecidableEq F] (ps upd : List (F × ℚ)) : List (F × ℚ) :=
  ps.filter (fun kv => (dlookup kv.1 upd).isNone) ++ upd

/-- The features used for a property: expanded by the Redlich–Kister cross
product (lines 340–343, abstracted as `expand`) for interaction configurations. -/
def effFeats {F : Type} (c : List Occ) (expand : List F → List F) (fs : List F) : List F :=
  if isInteractionConf c then expand fs else fs

/-- `parameters = {coef: 0 for ...}` (lines 348–351). -/
def initParams {F : Type} (fs : List F) : List (F × ℚ) := fs.map (fun f => (f, (0 : ℚ)))

/-- One property block (lines 353–359 and its two analogues):
`if len(desired_data) > 0: parameters.update(_fit_parameters(...))`. -/
def propStep {F R : Type} [DecidableEq F] (dataFor : String → List R)
    (fitFor : String → List F → List (F × ℚ)) (prop : String) (fs : List F)
    (p : List (F × ℚ)) : List (F × ℚ) :=
  if 0 < (dataFor prop).length then dictUpdate p (fitFor prop fs) else p

/-- `fit_formation_energy`: raises (models `ValueError`) for an interaction
configuration without an endmember map, otherwise runs the three property
blocks in order over the zero-initialised parameter dict. -/
def fit_formation_energy {F R EM : Type} [DecidableEq F]
    (configuration : List Occ) (endmembers : Option EM)
    (cpm sm hm : List F) (expand : List F → List F)
    (dataFor : String → List R)
    (fitFor : String → List F → List (F × ℚ)) : Except String (List (F × ℚ)) :=
  if isInteractionConf configuration && endmembers.isNone then
    Except.error "Endmember dictionary must be specified to compute an interaction parameter"
  else
    Except.ok
      (propStep dataFor fitFor "HM_FORM" (effFeats configuration expand hm)
        (propStep dataFor fitFor "SM_FORM" (effFeats configuration expand sm)
          (propStep dataFor fitFor "CPM_FORM" (effFeats configuration expand cpm)
            (initParams (effFeats configuration expand cpm
              ++ effFeats configuration expand sm
              ++ effFeats configuration expand hm)))))

/-- **C5.**  For every configuration containing a pair occupant, calling
`fit_formation_energy` without the `endmembers` argument fails immediately with
the `ValueError` configuration error — for *every* dataset store and regression
oracle, i.e. before any regression is performed; the function takes no database
argument, so no parameter can be written to any database by the call. -/
theorem C5_interaction_requires_endmembers {F R EM : Type} [DecidableEq F]
    (configuration : List Occ) (cpm sm hm : List F) (expand : List F → List F)
    (dataFor : String → List R) (fitFor : String → List F → List (F × ℚ))
    (hint : isInteractionConf configuration = true) :
    fit_formation_energy configuration (none : Option EM) cpm sm hm expand dataFor fitFor
      = Except.error
          "Endmember dictionary must be specified to compute an interaction parameter" := by
  rw [fit_formation_energy, if_pos]
  rw [hint]
  rfl

/-- **C5 witness**: scenario C — the binary interaction configuration
`('A', ('B','C'))` with no endmember map. -/
theorem C5_interaction_requires_endmembers_witness :
    isInteractionConf [Occ.atom "A", Occ.seq false ["B", "C"]] = true ∧
    fit_formation_energy (F := String) (R := Unit)
        [Occ.atom "A", Occ.seq false ["B", "C"]] (none : Option Unit)
        ["c1"] ["s1"] ["h1"] (fun fs => fs) (fun _ => []) (fun _ _ => [])
      = Except.error
          "Endmember dictionary must be specified to compute an interaction parameter" :=
  ⟨rfl, C5_interaction_requires_endmembers _ _ _ _ _ _ _ rfl⟩

theorem dlookup_append {F : Type} [DecidableEq F] (f : F) (a b : List (F × ℚ)) :
    dlookup f (a ++ b) = (dlookup f a).or (dlookup f b) := by
  induction a with
  | nil => rfl
  | cons kv a ih =>
    rw [List.cons_append, dlookup, dlookup]
    by_cases hf : kv.1 = f
    · rw [if_pos hf, if_pos hf]
      rfl
    · rw [if_neg hf, if_neg hf, ih]

theorem dlookup_eq_none {F : Type} [DecidableEq F] {f : F} {l : List (F × ℚ)}
    (h : ∀ kv ∈ l, kv.1 ≠ f) : dlookup f l = none := by
  induction l with
  | nil => rfl
  | cons kv l ih =>
    rw [dlookup, if_neg (h kv (List.mem_cons_self _ _))]
    exact ih (fun x hx => h x (List.mem_cons_of_mem _ hx))

theorem dlookup_filter {F : Type} [DecidableEq F] (f : F) (ps : List (F × ℚ))
    (pred : F × ℚ → Bool) (hpred : ∀ kv, kv.1 = f → pred kv = true) :
    dlookup f (ps.filter pred) = dlookup f ps := by
  induction ps with
  | nil => rfl
  | cons kv ps ih =>
    rw [List.filter_cons]
    by_cases hf : kv.1 = f
    · rw [hpred kv hf]
      simp only [if_true]
      rw [dlookup, if_pos hf, dlookup, if_pos hf]
    · cases hp : pred kv
      · simp only [Bool.false_eq_true, if_false]
        rw [ih, dlookup, if_neg hf]
      · simp only [if_true]
        rw [dlookup, if_neg hf, ih, dlookup, if_neg hf]

theorem dlookup_dictUpdate_not_mem {F : Type} [DecidableEq F] {f : F}
    {ps upd : List (F × ℚ)} (h : ∀ kv ∈ upd, kv.1 ≠ f) :
    dlookup f (dictUpdate ps upd) = dlookup f ps := by
  have hupd : dlookup f upd = none := dlookup_eq_none h
  rw [dictUpdate, dlookup_append, hupd, Option.or_none]
  apply dlookup_filter
  intro kv hkv
  rw [hkv, hupd]
  rfl

theorem dlookup_initParams {F : Type} [DecidableEq F] {f : F} {l : List F}
    (h : f ∈ l) : dlookup f (initParams l) = some 0 := by
  induction l with
  | nil => cases h
  | cons x l ih =>
    rw [initParams, List.map_cons, dlookup]
    by_cases hf : x = f
    · rw [if_pos hf]
    · rcases List.mem_cons.mp h with rfl | hmem
      · exact absurd rfl hf
      · rw [if_neg hf]
        exact ih hmem

theorem dlookup_propStep_not_mem {F R : Type} [DecidableEq F]
    {dataFor : String → List R} {fitFor : String → List F → List (F × ℚ)}
    {prop : String} {fs : List F} {p : List (F × ℚ)} {f : F}
    (hkeys : ∀ kv ∈ fitFor prop fs, kv.1 ∈ fs) (hf : f ∉ fs) :
    dlookup f (propStep dataFor fitFor prop fs p) = dlookup f p := by
  rw [propStep]
  split
  · apply dlookup_dictUpdate_not_mem
    intro kv hkv hEq
    exact hf (hEq ▸ hkeys kv hkv)
  · rfl

theorem propStep_no_data {F R : Type} [DecidableEq F]
    {dataFor : String → List R} {fitFor : String → List F → List (F × ℚ)}
    {prop : String} {fs : List F} {p : List (F × ℚ)} (h : dataFor prop = []) :
    propStep dataFor fitFor prop fs p = p := by
  rw [propStep, h]
  simp

/-- **C9.**  The dataset selector returns the empty list (and does not raise)
when no record matches; consequently, whenever one of the three properties has
no matching data, `fit_formation_energy` skips that property silently and every
feature coefficient belonging (only) to that property is exactly zero in the
returned parameter map. -/
theorem C9_no_data_skipped {F R EM : Type} [DecidableEq F]
    (records : List R) (q : R → Bool) (post : R → R)
    (configuration : List Occ) (endmembers : Option EM)
    (cpm sm hm : List F) (expand : List F → List F)
    (dataFor : String → List R) (fitFor : String → List F → List (F × ℚ))
    (ps : List (F × ℚ))
    (hok : fit_formation_energy configuration endmembers cpm sm hm expand dataFor fitFor
      = Except.ok ps)
    (hkeys : ∀ p fs, ∀ kv ∈ fitFor p fs, kv.1 ∈ fs) :
    ((∀ r ∈ records, q r = false) → get_data records q post = []) ∧
    (dataFor "CPM_FORM" = [] →
      ∀ f ∈ effFeats configuration expand cpm,
        f ∉ effFeats configuration expand sm → f ∉ effFeats configuration expand hm →
          dlookup f ps = some 0) ∧
    (dataFor "SM_FORM" = [] →
      ∀ f ∈ effFeats configuration expand sm,
        f ∉ effFeats configuration expand cpm → f ∉ effFeats configuration expand hm →
          dlookup f ps = some 0) ∧
    (dataFor "HM_FORM" = [] →
      ∀ f ∈ effFeats configuration expand hm,
        f ∉ effFeats configuration expand cpm → f ∉ effFeats configuration expand sm →
          dlookup f ps = some 0) := by
  rw [fit_formation_energy] at hok
  by_cases hcond : (isInteractionConf configuration && endmembers.isNone) = true
  · rw [if_pos hcond] at hok
    cases hok
  · rw [if_neg hcond] at hok
    injection hok with hps
    refine ⟨?_, ?_, ?_, ?_⟩
    · intro hnone
      rw [get_data, List.filter_eq_nil_iff.mpr (fun r hr => by rw [hnone r hr]; simp)]
      rfl
    · intro hcpm f hfc hfs hfh
      rw [← hps, dlookup_propStep_not_mem (hkeys _ _) hfh,
        dlookup_propStep_not_mem (hkeys _ _) hfs, propStep_no_data hcpm]
      exact dlookup_initParams (by simp [hfc])
    · intro hsm f hfs hfc hfh
      rw [← hps, dlookup_propStep_not_mem (hkeys _ _) hfh, propStep_no_data hsm,
        dlookup_propStep_not_mem (hkeys _ _) hfc]
      exact dlookup_initParams (by simp [hfs])
    · intro hhm f hfh hfc hfs
      rw [← hps, propStep_no_data hhm, dlookup_propStep_not_mem (hkeys _ _) hfs,
        dlookup_propStep_not_mem (hkeys _ _) hfc]
      exact dlookup_initParams (by simp [hfh])

/-- **C9 witness**: no record matches any of the three properties; all three
coefficients stay zero. -/
theorem C9_no_data_skipped_witness :
    (fit_formation_energy (F := String) (R := Unit)
        [Occ.atom "A"] (none : Option Unit) ["c1"] ["s1"] ["h1"] (fun fs => fs)
        (fun _ => []) (fun _ _ => [])
      = Except.ok [("c1", 0), ("s1", 0), ("h1", 0)]) ∧
    (∀ p fs, ∀ kv ∈ (fun (_ : String) (_ : List String) => ([] : List (String × ℚ))) p fs,
      kv.1 ∈ fs) ∧
    ((∀ r ∈ ([()] : List Unit), (fun _ => false) r = false) →
      get_data [()] (fun _ => false) (fun r => r) = []) ∧
    ((fun (_ : String) => ([] : List Unit)) "CPM_FORM" = [] →
      ∀ f ∈ effFeats [Occ.atom "A"] (fun fs => fs) ["c1"],
        f ∉ effFeats [Occ.atom "A"] (fun fs => fs) ["s1"] →
        f ∉ effFeats [Occ.atom "A"] (fun fs => fs) ["h1"] →
          dlookup f [("c1", (0 : ℚ)), ("s1", 0), ("h1", 0)] = some 0) := by
  have hok : fit_formation_energy (F := String) (R := Unit)
      [Occ.atom "A"] (none : Option Unit) ["c1"] ["s1"] ["h1"] (fun fs => fs)
      (fun _ => []) (fun _ _ => [])
    = Except.ok [("c1", 0), ("s1", 0), ("h1", 0)] := rfl
  have hkeys : ∀ (p : String) (fs : List String),
      ∀ kv ∈ (fun (_ : String) (_ : List String) => ([] : List (String × ℚ))) p fs,
        kv.1 ∈ fs := fun p fs kv h => absurd h (List.not_mem_nil kv)
  have hmain := C9_no_data_skipped [()] (fun _ => false) (fun r => r)
    [Occ.atom "A"] (none : Option Unit) ["c1"] ["s1"] ["h1"] (fun fs => fs)
    (fun _ => []) (fun _ _ => []) [("c1", 0), ("s1", 0), ("h1", 0)] hok hkeys
  exact ⟨hok, hkeys, hmain.1, hmain.2.1⟩

/-! ### Database ownership (claim C10)

`phase_fit` (paramselect.py lines 544–641) receives `dbf` — its docstring says
"Database to add parameters to" — and mutates it in place through
`dbf.add_parameter(...)` calls; `paramselect.py` never deep-copies a database.
`setup_context` (espei/error_functions/context.py, line 38) performs
`dbf = copy.deepcopy(dbf)` before any mutation, and all subsequent mutations
(`dbf.symbols[x] = ...`) hit the fresh copy only.

To state aliasing facts we model the Python heap minimally: a list of database
values addressed by index; a deep copy appends a fresh object with an equal
value at a fresh address. -/

/-- A phase parameter record as passed to `Database.add_parameter`:
`(kind, phase_name, constituent_array, degree, expression)`.  The symbolic
expression is opaque (`E`). -/
structure ParamRec (E : Type) where
  kind : String
  phase : String
  constituents : List (List String)
  degree : ℕ
  expr : E
deriving DecidableEq

/-- A database object's observable value: its parameter list. -/
structure DbVal (E : Type) where
  params : List (ParamRec E)
deriving DecidableEq

def dbEmpty {E : Type} : DbVal E := ⟨[]⟩

/-- Dereference a database object. -/
def heapGet {E : Type} (h : List (DbVal E)) (r : ℕ) : DbVal E := h.getD r dbEmpty

/-- `dbf.add_parameter(...)`: append one record to the object at `r`. -/
def add_parameter {E : Type} (h : List (DbVal E)) (r : ℕ) (pr : ParamRec E) :
    List (DbVal E) :=
  h.set r ⟨(heapGet h r).params ++ [pr]⟩

/-- The database effect of a `phase_fit` run: the `add_parameter` calls it
performs on the caller-supplied database object (one 'G' record per
symmetry-equivalent endmember, lines 578–592, then 'L' records per interaction
and degree, lines 636–640), in order.  The records are computed by the pure
fitting pipeline and abstracted as `recs`. -/
def phase_fit_writes {E : Type} (h : List (DbVal E)) (r : ℕ)
    (recs : List (ParamRec E)) : List (DbVal E) :=
  recs.foldl (fun hh pr => add_parameter hh r pr) h

/-- `setup_context`: deep-copy the caller's database to a fresh address
(`h.length`), then apply every mutation (abstracted as `muts`) to the copy. -/
def setup_context {E : Type} (h : List (DbVal E)) (r : ℕ)
    (muts : List (DbVal E → DbVal E)) : List (DbVal E) × ℕ :=
  (muts.foldl (fun hh m => hh.set h.length (m (heapGet hh h.length)))
      (h ++ [heapGet h r]),
    h.length)

theorem getD_set_ne {α : Type} {l : List α} {i j : ℕ} (hij : i ≠ j) (v d : α) :
    (l.set i v).getD j d = l.getD j d := by
  by_cases hj : j < l.length
  · rw [List.getD_eq_getElem _ _ (by simpa using hj), List.getD_eq_getElem _ _ hj]
    exact List.getElem_set_ne hij _
  · rw [List.getD_eq_default _ _ (by simpa using Nat.le_of_not_lt hj),
      List.getD_eq_default _ _ (Nat.le_of_not_lt hj)]

theorem getD_set_self {α : Type} {l : List α} {i : ℕ} (hi : i < l.length) (v d : α) :
    (l.set i v).getD i d = v := by
  rw [List.getD_eq_getElem _ _ (by simpa using hi)]
  simp [List.getElem_set]

theorem heapGet_foldl_set_ne {E : Type} (muts : List (DbVal E → DbVal E)) (r r' : ℕ)
    (hne : r' ≠ r) : ∀ h0 : List (DbVal E),
    heapGet (muts.foldl (fun hh m => hh.set r' (m (heapGet hh r'))) h0) r
      = heapGet h0 r := by
  induction muts with
  | nil => intro h0; rfl
  | cons m muts ih =>
    intro h0
    rw [List.foldl_cons, ih]
    exact getD_set_ne hne _ _

theorem phase_fit_writes_params {E : Type} :
    ∀ (recs : List (ParamRec E)) (h : List (DbVal E)) (r : ℕ), r < h.length →
      (heapGet (phase_fit_writes h r recs) r).params
        = (heapGet h r).params ++ recs := by
  intro recs
  induction recs with
  | nil => intro h r hr; simp [phase_fit_writes]
  | cons pr recs ih =>
    intro h r hr
    rw [phase_fit_writes, List.foldl_cons]
    have hlen : (add_parameter h r pr).length = h.length := by
      rw [add_parameter, List.length_set]
    have hres := ih (add_parameter h r pr) r (by rw [hlen]; exact hr)
    rw [phase_fit_writes] at hres
    rw [hres, add_parameter, heapGet, getD_set_self hr]
    simp

/-- **C10, counterexample.**  A fitting run (`phase_fit`) mutates the
caller-supplied database object in place: after a run performing one
`add_parameter` call on the (only) database object, the caller's object has
changed — no deep copy protects it, contrary to the claim. -/
theorem C10_counterexample :
    heapGet (phase_fit_writes [(⟨[]⟩ : DbVal ℕ)] 0 [⟨"G", "TEST", [["A"]], 0, 0⟩]) 0
      ≠ heapGet [(⟨[]⟩ : DbVal ℕ)] 0 := by
  decide

/-- **C10 (amended).**  The deep copy is taken by `setup_context` (context.py),
not by the `phase_fit` fitting run: `setup_context` deep-copies the
caller-supplied database before mutating, so *its* caller's object is left
unchanged, whereas `phase_fit` mutates the caller-supplied database in place by
appending parameter records; records, once inserted, are never mutated
afterwards — every run only appends, so the final parameter list extends the
initial one with the inserted records unchanged and in order. -/
theorem C10_database_ownership {E : Type} (h : List (DbVal E)) (r : ℕ)
    (muts : List (DbVal E → DbVal E)) (recs : List (ParamRec E))
    (hr : r < h.length) :
    heapGet (setup_context h r muts).1 r = heapGet h r ∧
    (heapGet (phase_fit_writes h r recs) r).params = (heapGet h r).params ++ recs := by
  constructor
  · rw [setup_context]
    rw [heapGet_foldl_set_ne muts r h.length (Nat.ne_of_gt hr) _]
    show (h ++ [heapGet h r]).getD r dbEmpty = heapGet h r
    rw [List.getD_append _ _ _ _ hr]
    rfl
  · exact phase_fit_writes_params recs h r hr

/-- **C10 witness**: one caller-supplied database, one mutation of the copy,
one inserted record. -/
theorem C10_database_ownership_witness :
    (0 < ([(⟨[⟨"G", "OLD", [["B"]], 0, (7 : ℕ)⟩]⟩ : DbVal ℕ)] : List (DbVal ℕ)).length) ∧
    (heapGet (setup_context [(⟨[⟨"G", "OLD", [["B"]], 0, (7 : ℕ)⟩]⟩ : DbVal ℕ)] 0
        [fun _ => ⟨[]⟩]).1 0
      = heapGet [(⟨[⟨"G", "OLD", [["B"]], 0, (7 : ℕ)⟩]⟩ : DbVal ℕ)] 0 ∧
    (heapGet (phase_fit_writes [(⟨[⟨"G", "OLD", [["B"]], 0, (7 : ℕ)⟩]⟩ : DbVal ℕ)] 0
        [⟨"G", "TEST", [["A"]], 0, 0⟩]) 0).params
      = (heapGet [(⟨[⟨"G", "OLD", [["B"]], 0, (7 : ℕ)⟩]⟩ : DbVal ℕ)] 0).params
          ++ [⟨"G", "TEST", [["A"]], 0, 0⟩]) :=
  ⟨by decide,
    C10_database_ownership [(⟨[⟨"G", "OLD", [["B"]], 0, (7 : ℕ)⟩]⟩ : DbVal ℕ)] 0
      [fun _ => ⟨[]⟩] [⟨"G", "TEST", [["A"]], 0, 0⟩] (by decide)⟩

/-! ### `_fit_parameters` (paramselect.py lines 189–224)

```python
model_scores = []
results = np.zeros((len(feature_tuple), len(feature_tuple)))
clf = LinearRegression(fit_intercept=False, normalize=True)
for num_params in range(1, feature_matrix.shape[-1] + 1):
    current_matrix = feature_matrix[:, :num_params]
    clf.fit(current_matrix, data_quantities)
    rss = np.square(np.dot(current_matrix, clf.coef_) - data_quantities).sum()
    score = 2*num_params + current_matrix.shape[-2] * np.log(rss)
    model_scores.append(score)
    results[num_params - 1, :num_params] = clf.coef_
return OrderedDict(zip(feature_tuple, results[np.argmin(model_scores), :]))
```

Floats are modelled by `ℚ` for the data and coefficients and by `EReal` for the
AIC scores: `np.log 0` is `-inf` (numpy emits a `RuntimeWarning`, not an
exception), modelled by `⊥`.  sklearn's `LinearRegression(fit_intercept=False,
normalize=True)` ignores `normalize` without an intercept and is an ordinary
least-squares solver; it is abstracted as the oracle `lstsq : ℕ → List ℚ`
(`lstsq k` = the coefficient vector fitted on the first `k` columns), whose
contract is `IsLstsq`. -/

/-- `np.dot` of a row with a coefficient vector. -/
def dotQ (row coef : List ℚ) : ℚ := (List.zipWith (· * ·) row coef).sum

/-- Residual sum of squares of the nested model on the first `k` columns. -/
def rssQ (A : List (List ℚ)) (b : List ℚ) (coef : List ℚ) (k : ℕ) : ℚ :=
  (List.zipWith (fun row bi => (dotQ (row.take k) coef - bi) ^ 2) A b).sum

/-- The least-squares contract of `clf.fit` on the first `k` columns. -/
def IsLstsq (A : List (List ℚ)) (b : List ℚ) (k : ℕ) (coef : List ℚ) : Prop :=
  coef.length = k ∧ ∀ c : List ℚ, c.length = k → rssQ A b coef k ≤ rssQ A b c k

/-- AIC score `2·num_params + rows·ln(RSS)`, with `ln 0 = -∞`. -/
noncomputable def aicScore (M k : ℕ) (r : ℚ) : EReal :=
  if r = 0 then ⊥ else (((2 * k : ℝ) + (M : ℝ) * Real.log (r : ℝ)) : ℝ)

/-- `model_scores`: one AIC per `num_params = 1 .. feature_matrix.shape[-1]`. -/
noncomputable def modelScores (lstsq : ℕ → List ℚ) (A : List (List ℚ)) (b : List ℚ) :
    List EReal :=
  (List.range' 1 (A.getD 0 []).length).map
    (fun k => aicScore A.length k (rssQ A b (lstsq k) k))

/-- `np.argmin`: index of the first occurrence of the minimum. -/
noncomputable def argminIdx : List EReal → ℕ
  | [] => 0
  | [_] => 0
  | x :: y :: ys =>
    if x ≤ (y :: ys).getD (argminIdx (y :: ys)) ⊥ then 0 else argminIdx (y :: ys) + 1

/-- `_fit_parameters`: the row `argmin(model_scores)` of the results matrix is
`lstsq (argmin+1)` padded with zeros to the feature count, zipped with the
feature identifiers. -/
noncomputable def fit_parameters {F : Type} (lstsq : ℕ → List ℚ)
    (A : List (List ℚ)) (b : List ℚ) (features : List F) : List (F × ℚ) :=
  features.zip
    (lstsq (argminIdx (modelScores lstsq A b) + 1)
      ++ List.replicate
          (features.length - (lstsq (argminIdx (modelScores lstsq A b) + 1)).length) 0)

theorem argminIdx_lt_length : ∀ {l : List EReal}, l ≠ [] → argminIdx l < l.length := by
  intro l
  induction l with
  | nil => intro h; exact absurd rfl h
  | cons x t ih =>
    intro _
    cases t with
    | nil => simp [argminIdx]
    | cons y ys =>
      rw [argminIdx]
      split
      · simp
      · have := ih (by simp)
        simpa using Nat.succ_lt_succ this

theorem argminIdx_le : ∀ (l : List EReal), ∀ i < l.length,
    l.getD (argminIdx l) ⊥ ≤ l.getD i ⊥ := by
  intro l
  induction l with
  | nil => intro i hi; simp at hi
  | cons x t ih =>
    intro i hi
    cases t with
    | nil =>
      have hi0 : i = 0 := by simpa using hi
      subst hi0
      simp [argminIdx]
    | cons y ys =>
      rw [argminIdx]
      by_cases hle : x ≤ (y :: ys).getD (argminIdx (y :: ys)) ⊥
      · rw [if_pos hle]
        cases i with
        | zero => simp
        | succ i' =>
          rw [List.getD_cons_zero, List.getD_cons_succ]
          exact le_trans hle (ih i' (by simpa using hi))
      · rw [if_neg hle]
        cases i with
        | zero =>
          rw [List.getD_cons_succ, List.getD_cons_zero]
          exact le_of_lt (lt_of_not_le hle)
        | succ i' =>
          rw [List.getD_cons_succ, List.getD_cons_succ]
          exact ih i' (by simpa using hi)

theorem argminIdx_first : ∀ (l : List EReal), ∀ i < argminIdx l,
    l.getD (argminIdx l) ⊥ < l.getD i ⊥ := by
  intro l
  induction l with
  | nil => intro i hi; simp [argminIdx] at hi
  | cons x t ih =>
    intro i hi
    cases t with
    | nil => simp [argminIdx] at hi
    | cons y ys =>
      rw [argminIdx] at hi ⊢
      by_cases hle : x ≤ (y :: ys).getD (argminIdx (y :: ys)) ⊥
      · rw [if_pos hle] at hi
        simp at hi
      · rw [if_neg hle] at hi ⊢
        cases i with
        | zero =>
          rw [List.getD_cons_succ, List.getD_cons_zero]
          exact lt_of_not_le hle
        | succ i' =>
          rw [List.getD_cons_succ, List.getD_cons_succ]
          exact ih i' (by simpa using hi)

theorem argminIdx_eq_zero_of_getD_bot {l : List EReal} (h : l.getD 0 ⊥ = ⊥) :
    argminIdx l = 0 := by
  by_contra hne
  have hpos : 0 < argminIdx l := Nat.pos_of_ne_zero hne
  have hlt := argminIdx_first l 0 hpos
  rw [h] at hlt
  exact absurd hlt (not_lt_bot)

theorem modelScores_length (lstsq : ℕ → List ℚ) (A : List (List ℚ)) (b : List ℚ) :
    (modelScores lstsq A b).length = (A.getD 0 []).length := by
  simp [modelScores]

theorem modelScores_getD (lstsq : ℕ → List ℚ) (A : List (List ℚ)) (b : List ℚ)
    {i : ℕ} (hi : i < (A.getD 0 []).length) :
    (modelScores lstsq A b).getD i ⊥
      = aicScore A.length (i + 1) (rssQ A b (lstsq (i + 1)) (i + 1)) := by
  rw [modelScores, List.getD_eq_getElem _ _ (by simpa using hi), List.getElem_map,
    List.getElem_range']
  norm_num [Nat.add_comm]

/-- **C1.**  For every `M×N` feature matrix and length-`M` response vector, the
stepwise selector fits a no-intercept least-squares model on the first `k`
columns for each `k = 1..N` (the `IsLstsq` contract of the abstracted sklearn
solver), scores model `k` by `AIC = 2k + M·ln(RSS_k)`, and returns the map
assigning every one of the `N` feature identifiers its coefficient under the
minimum-AIC model, with all coefficients beyond the winning `k` exactly zero;
ties are broken towards the smallest `k` (first occurrence of the minimum,
`np.argmin` semantics): the winner's score is `≤` every model's score and `<`
the score of every strictly smaller model. -/
theorem C1_aic_selection {F : Type} (lstsq : ℕ → List ℚ)
    (A : List (List ℚ)) (b : List ℚ) (features : List F)
    (hM : 0 < A.length) (hN : 0 < features.length)
    (hrows : ∀ row ∈ A, row.length = features.length)
    (hblen : b.length = A.length)
    (hfit : ∀ k, 1 ≤ k → k ≤ features.length → IsLstsq A b k (lstsq k)) :
    ∃ kstar, 1 ≤ kstar ∧ kstar ≤ features.length ∧
      fit_parameters lstsq A b features
        = features.zip (lstsq kstar ++ List.replicate (features.length - kstar) 0) ∧
      (∀ k, 1 ≤ k → k ≤ features.length →
        aicScore A.length kstar (rssQ A b (lstsq kstar) kstar)
          ≤ aicScore A.length k (rssQ A b (lstsq k) k)) ∧
      (∀ k, 1 ≤ k → k < kstar →
        aicScore A.length kstar (rssQ A b (lstsq kstar) kstar)
          < aicScore A.length k (rssQ A b (lstsq k) k)) := by
  have hC : (A.getD 0 []).length = features.length := by
    have hmem : A.getD 0 [] ∈ A := by
      rw [List.getD_eq_getElem _ _ hM]
      exact List.getElem_mem hM
    exact hrows _ hmem
  have hscoreslen : (modelScores lstsq A b).length = features.length := by
    rw [modelScores_length, hC]
  have hjlt : argminIdx (modelScores lstsq A b) < features.length := by
    have hne : modelScores lstsq A b ≠ [] := by
      rw [← List.length_pos, hscoreslen]
      exact hN
    have := argminIdx_lt_length hne
    rwa [hscoreslen] at this
  refine ⟨argminIdx (modelScores lstsq A b) + 1, by omega, by omega, ?_, ?_, ?_⟩
  · rw [fit_parameters,
      (hfit (argminIdx (modelScores lstsq A b) + 1) (by omega) (by omega)).1]
  · intro k h1 h2
    have hk : k - 1 + 1 = k := by omega
    have hle := argminIdx_le (modelScores lstsq A b) (k - 1)
      (by rw [hscoreslen]; omega)
    rw [modelScores_getD lstsq A b (by rw [hC]; omega),
      modelScores_getD lstsq A b (by rw [hC]; omega), hk] at hle
    exact hle
  · intro k h1 hlt
    have hk : k - 1 + 1 = k := by omega
    have hfirst := argminIdx_first (modelScores lstsq A b) (k - 1) (by omega)
    rw [modelScores_getD lstsq A b (by rw [hC]; omega),
      modelScores_getD lstsq A b (by rw [hC]; omega), hk] at hfirst
    exact hfirst

theorem dotQ_take_one (row : List ℚ) (c : ℚ) :
    dotQ (row.take 1) [c] = c * row.getD 0 0 := by
  cases row with
  | nil => simp [dotQ]
  | cons r rest =>
    simp [dotQ]
    ring

theorem list_sum_nonneg_all_zero : ∀ {l : List ℚ}, (∀ x ∈ l, 0 ≤ x) → l.sum = 0 →
    ∀ x ∈ l, x = 0 := by
  intro l
  induction l with
  | nil => intro _ _ x hx; cases hx
  | cons a l ih =>
    intro hpos hsum x hx
    have hl : 0 ≤ l.sum := List.sum_nonneg (fun y hy => hpos y (List.mem_cons_of_mem _ hy))
    have ha : 0 ≤ a := hpos a (List.mem_cons_self _ _)
    rw [List.sum_cons] at hsum
    rcases List.mem_cons.mp hx with rfl | hx'
    · linarith
    · exact ih (fun y hy => hpos y (List.mem_cons_of_mem _ hy)) (by linarith) x hx'

theorem rssQ_nonneg (A : List (List ℚ)) (b c : List ℚ) (k : ℕ) : 0 ≤ rssQ A b c k := by
  apply List.sum_nonneg
  intro x hx
  obtain ⟨i, hi, rfl⟩ := List.mem_iff_getElem.mp hx
  rw [List.getElem_zipWith]
  positivity

theorem rss_scaled_zero : ∀ (A : List (List ℚ)) (b : List ℚ) (s : ℚ),
    (∀ i < A.length, b.getD i 0 = s * (A.getD i []).getD 0 0) →
    rssQ A b [s] 1 = 0 := by
  intro A
  induction A with
  | nil => intro b s _; rfl
  | cons row A ih =>
    intro b s h
    cases b with
    | nil => rfl
    | cons bi b =>
      have h0 : bi = s * row.getD 0 0 := by simpa using h 0 (by simp)
      have hrest := ih b s (fun i hi => by simpa using h (i + 1) (by simpa using hi))
      rw [rssQ] at hrest ⊢
      rw [List.zipWith_cons_cons, List.sum_cons, hrest, dotQ_take_one, h0]
      ring

theorem rssQ_term_eq (A : List (List ℚ)) (b c : List ℚ) (k : ℕ)
    (hsum : rssQ A b c k = 0) (hbl : b.length = A.length)
    {i : ℕ} (hi : i < A.length) :
    dotQ ((A.getD i []).take k) c = b.getD i 0 := by
  have hlen : (List.zipWith (fun row bi => (dotQ (row.take k) c - bi) ^ 2) A b).length
      = A.length := by
    rw [List.length_zipWith, hbl, min_self]
  have hnonneg : ∀ x ∈ List.zipWith (fun row bi => (dotQ (row.take k) c - bi) ^ 2) A b,
      0 ≤ x := by
    intro x hx
    obtain ⟨i', hi', rfl⟩ := List.mem_iff_getElem.mp hx
    rw [List.getElem_zipWith]
    positivity
  have hall := list_sum_nonneg_all_zero hnonneg hsum
  have hzero := hall _ (List.getElem_mem (by rw [hlen]; exact hi))
  rw [List.getElem_zipWith] at hzero
  have hsub := sq_eq_zero_iff.mp hzero
  have hfin : dotQ ((A.getD i []).take k) c - b.getD i 0 = 0 := by
    rw [List.getD_eq_getElem _ _ hi, List.getD_eq_getElem _ _ (by rw [hbl]; exact hi)]
    exact hsub
  linarith

/-- **C4.**  When the first column exactly reproduces the response (up to the
exact scaling `s`, so the one-parameter model has RSS exactly 0), the selector
does not fault: the score of model 1 is the well-defined `⊥` (numpy's `-inf`
for `log 0`), `np.argmin` selects `num_params = 1`, and the returned map gives
the first feature the exact scaling coefficient `s` and every other feature 0. -/
theorem C4_zero_rss {F : Type} (lstsq : ℕ → List ℚ)
    (A : List (List ℚ)) (b : List ℚ) (features : List F) (s : ℚ)
    (hM : 0 < A.length) (hN : 0 < features.length)
    (hrows : ∀ row ∈ A, row.length = features.length)
    (hblen : b.length = A.length)
    (hb : ∀ i < A.length, b.getD i 0 = s * (A.getD i []).getD 0 0)
    (hnz : ∃ i, i < A.length ∧ (A.getD i []).getD 0 0 ≠ 0)
    (hfit : ∀ k, 1 ≤ k → k ≤ features.length → IsLstsq A b k (lstsq k)) :
    fit_parameters lstsq A b features
      = features.zip (s :: List.replicate (features.length - 1) 0) ∧
    rssQ A b (lstsq 1) 1 = 0 ∧
    aicScore A.length 1 (rssQ A b (lstsq 1) 1) = ⊥ := by
  have hrs : rssQ A b [s] 1 = 0 := rss_scaled_zero A b s hb
  obtain ⟨hlen1, hmin1⟩ := hfit 1 le_rfl hN
  have hle := hmin1 [s] rfl
  rw [hrs] at hle
  have hrz : rssQ A b (lstsq 1) 1 = 0 := le_antisymm hle (rssQ_nonneg A b (lstsq 1) 1)
  obtain ⟨c0, hc0⟩ := List.length_eq_one.mp hlen1
  obtain ⟨i, hiA, hr0⟩ := hnz
  have hterm := rssQ_term_eq A b (lstsq 1) 1 hrz hblen hiA
  rw [hc0, dotQ_take_one, hb i hiA] at hterm
  have hc0s : c0 = s := mul_right_cancel₀ hr0 hterm
  rw [hc0s] at hc0
  have hbot : aicScore A.length 1 (rssQ A b (lstsq 1) 1) = ⊥ := by
    rw [hrz, aicScore, if_pos rfl]
  have hC : (A.getD 0 []).length = features.length := by
    have hmem : A.getD 0 [] ∈ A := by
      rw [List.getD_eq_getElem _ _ hM]
      exact List.getElem_mem hM
    exact hrows _ hmem
  have hscore0 : (modelScores lstsq A b).getD 0 ⊥ = ⊥ := by
    rw [modelScores_getD lstsq A b (by rw [hC]; omega)]
    exact hbot
  have hargmin : argminIdx (modelScores lstsq A b) = 0 :=
    argminIdx_eq_zero_of_getD_bot hscore0
  refine ⟨?_, hrz, hbot⟩
  rw [fit_parameters, hargmin, hc0]
  rfl

/-- The constant oracle `[2]` satisfies the least-squares contract on the
concrete instance `A = [[2]]`, `b = [4]` (for the single feasible `k = 1`). -/
theorem concrete_isLstsq : ∀ k, 1 ≤ k → k ≤ 1 →
    IsLstsq [[2]] [4] k ((fun _ : ℕ => ([2] : List ℚ)) k) := by
  intro k h1 h2
  have hk : k = 1 := by omega
  subst hk
  refine ⟨rfl, ?_⟩
  intro c hc
  obtain ⟨c0, rfl⟩ := List.length_eq_one.mp hc
  have ha : rssQ [[2]] [4] [2] 1 = 0 := by
    simp [rssQ, dotQ]
    norm_num
  have hb : rssQ [[2]] [4] [c0] 1 = (2 * c0 - 4) ^ 2 := by
    simp [rssQ, dotQ]
  rw [ha, hb]
  positivity

/-- **C1 witness** at `A = [[2]]`, `b = [4]`, one feature. -/
theorem C1_aic_selection_witness :
    (0 < ([[(2 : ℚ)]] : List (List ℚ)).length) ∧
    (0 < (["f"] : List String).length) ∧
    (∀ row ∈ ([[(2 : ℚ)]] : List (List ℚ)), row.length = (["f"] : List String).length) ∧
    (([4] : List ℚ).length = ([[(2 : ℚ)]] : List (List ℚ)).length) ∧
    (∀ k, 1 ≤ k → k ≤ (["f"] : List String).length →
      IsLstsq [[2]] [4] k ((fun _ : ℕ => ([2] : List ℚ)) k)) ∧
    (∃ kstar, 1 ≤ kstar ∧ kstar ≤ (["f"] : List String).length ∧
      fit_parameters (fun _ : ℕ => ([2] : List ℚ)) [[2]] [4] ["f"]
        = (["f"] : List String).zip
            ((fun _ : ℕ => ([2] : List ℚ)) kstar
              ++ List.replicate ((["f"] : List String).length - kstar) 0) ∧
      (∀ k, 1 ≤ k → k ≤ (["f"] : List String).length →
        aicScore ([[(2 : ℚ)]] : List (List ℚ)).length kstar
            (rssQ [[2]] [4] ((fun _ : ℕ => ([2] : List ℚ)) kstar) kstar)
          ≤ aicScore ([[(2 : ℚ)]] : List (List ℚ)).length k
              (rssQ [[2]] [4] ((fun _ : ℕ => ([2] : List ℚ)) k) k)) ∧
      (∀ k, 1 ≤ k → k < kstar →
        aicScore ([[(2 : ℚ)]] : List (List ℚ)).length kstar
            (rssQ [[2]] [4] ((fun _ : ℕ => ([2] : List ℚ)) kstar) kstar)
          < aicScore ([[(2 : ℚ)]] : List (List ℚ)).length k
              (rssQ [[2]] [4] ((fun _ : ℕ => ([2] : List ℚ)) k) k))) := by
  refine ⟨by decide, by decide, ?_, by decide, concrete_isLstsq, ?_⟩
  · intro row hrow
    have : row = [(2 : ℚ)] := by simpa using hrow
    rw [this]
    rfl
  · exact C1_aic_selection (fun _ : ℕ => ([2] : List ℚ)) [[2]] [4] ["f"]
      (by decide) (by decide)
      (fun row hrow => by
        have : row = [(2 : ℚ)] := by simpa using hrow
        rw [this]
        rfl)
      (by decide) concrete_isLstsq

/-- **C4 witness** at `A = [[2]]`, `b = [4]`, scaling `s = 2`, one feature. -/
theorem C4_zero_rss_witness :
    (0 < ([[(2 : ℚ)]] : List (List ℚ)).length) ∧
    (0 < (["f"] : List String).length) ∧
    (∀ row ∈ ([[(2 : ℚ)]] : List (List ℚ)), row.length = (["f"] : List String).length) ∧
    (([4] : List ℚ).length = ([[(2 : ℚ)]] : List (List ℚ)).length) ∧
    (∀ i < ([[(2 : ℚ)]] : List (List ℚ)).length,
      ([4] : List ℚ).getD i 0 = 2 * (([[(2 : ℚ)]] : List (List ℚ)).getD i []).getD 0 0) ∧
    (∃ i, i < ([[(2 : ℚ)]] : List (List ℚ)).length ∧
      (([[(2 : ℚ)]] : List (List ℚ)).getD i []).getD 0 0 ≠ 0) ∧
    (∀ k, 1 ≤ k → k ≤ (["f"] : List String).length →
      IsLstsq [[2]] [4] k ((fun _ : ℕ => ([2] : List ℚ)) k)) ∧
    (fit_parameters (fun _ : ℕ => ([2] : List ℚ)) [[2]] [4] ["f"]
        = (["f"] : List String).zip
            ((2 : ℚ) :: List.replicate ((["f"] : List String).length - 1) 0) ∧
      rssQ [[2]] [4] ((fun _ : ℕ => ([2] : List ℚ)) 1) 1 = 0 ∧
      aicScore ([[(2 : ℚ)]] : List (List ℚ)).length 1
          (rssQ [[2]] [4] ((fun _ : ℕ => ([2] : List ℚ)) 1) 1) = ⊥) := by
  have hrows : ∀ row ∈ ([[(2 : ℚ)]] : List (List ℚ)),
      row.length = (["f"] : List String).length := by
    intro row hrow
    have : row = [(2 : ℚ)] := by simpa using hrow
    rw [this]
    rfl
  have hb : ∀ i < ([[(2 : ℚ)]] : List (List ℚ)).length,
      ([4] : List ℚ).getD i 0 = 2 * (([[(2 : ℚ)]] : List (List ℚ)).getD i []).getD 0 0 := by
    intro i hi
    have : i = 0 := by simpa using hi
    subst this
    norm_num
  have hnz : ∃ i, i < ([[(2 : ℚ)]] : List (List ℚ)).length ∧
      (([[(2 : ℚ)]] : List (List ℚ)).getD i []).getD 0 0 ≠ 0 :=
    ⟨0, by decide, by norm_num⟩
  exact ⟨by decide, by decide, hrows, by decide, hb, hnz, concrete_isLstsq,
    C4_zero_rss (fun _ : ℕ => ([2] : List ℚ)) [[2]] [4] ["f"] 2
      (by decide) (by decide) hrows (by decide) hb hnz concrete_isLstsq⟩
